import Mathlib

/-!
Verification of the GhostType speech-to-text server core.

This file shallowly embeds the parts of the repository that the checked
claims are about:

* `server/app/utils/audio.py` — the Ogg-Opus muxer (`_make_ogg_crc_table`,
  `_ogg_crc`, `_opus_head`, `_opus_tags`, `_segment_table_for_packet`,
  `_build_ogg_page`, `packets_to_ogg_opus_bytes`,
  `decode_opus_packets_to_pcm_s16le`);
* `server/app/core/fbank.py` — the feature front-end
  (`_frame_waveform`, `log_mel_fbank`, `apply_lfr`, `apply_cmvn`,
  `sensevoice_ctc_features`);
* `server/app/core/asr.py` — CTC detokenization (`_decode_token_ids`)
  and vocabulary-file parsing (`_parse_token_file`), plus the stub
  engine's `transcribe`;
* `server/app/main.py` — the per-connection session state machine
  (`SessionState`, `handle_stop`, the websocket receive loop).

Python byte strings are modelled as `List Nat` (entries < 256 where it
matters), Python `int` as `Int`/`Nat` with explicit `% 2^w` at the points
where the source masks or packs fixed-width values, and raising code as
`Except String`.
-/

namespace GhostType

set_option maxRecDepth 8000

/-- Little-endian 2-byte encoding, as `struct.pack "<H"` produces for an
in-range value. -/
def le16 (n : Nat) : List Nat := [n % 256, n / 256 % 256]

/-- Little-endian 4-byte encoding, as `struct.pack "<I"` produces for an
in-range value. -/
def le32 (n : Nat) : List Nat :=
  [n % 256, n / 256 % 256, n / 256 ^ 2 % 256, n / 256 ^ 3 % 256]

/-- Little-endian 8-byte encoding, as `struct.pack "<Q"` produces for an
in-range value. -/
def le64 (n : Nat) : List Nat :=
  [n % 256, n / 256 % 256, n / 256 ^ 2 % 256, n / 256 ^ 3 % 256,
   n / 256 ^ 4 % 256, n / 256 ^ 5 % 256, n / 256 ^ 6 % 256, n / 256 ^ 7 % 256]

/-- Little-endian decoding of a byte list back into a number. -/
def leDecode (bs : List Nat) : Nat := bs.foldr (fun b acc => b + 256 * acc) 0

/-- `_OGG_CRC_POLY` from `audio.py`. -/
def oggCrcPoly : Nat := 0x04C11DB7

/-- One iteration of the inner loop of `_make_ogg_crc_table`:
`r = ((r << 1) & 0xFFFFFFFF) ^ POLY` when bit 31 is set, else
`(r << 1) & 0xFFFFFFFF`. -/
def crcTableStep (r : Nat) : Nat :=
  if r.testBit 31 then (r <<< 1) % 2 ^ 32 ^^^ oggCrcPoly else (r <<< 1) % 2 ^ 32

/-- Entry `i` of the Ogg CRC table: eight `crcTableStep` rounds on `i << 24`. -/
def crcEntry (i : Nat) : Nat := crcTableStep^[8] (i <<< 24)

/-- `_OGG_CRC_TABLE = _make_ogg_crc_table()` from `audio.py`. -/
def oggCrcTable : List Nat := (List.range 256).map crcEntry

/-- `_ogg_crc` from `audio.py`:
`crc = ((crc << 8) & 0xFFFFFFFF) ^ table[((crc >> 24) & 0xFF) ^ b]`. -/
def oggCrc (page : List Nat) : Nat :=
  page.foldl (fun crc b => (crc <<< 8) % 2 ^ 32 ^^^ oggCrcTable.getD ((crc >>> 24) % 256 ^^^ b) 0) 0

/-- `_opus_head` from `audio.py`: the `OpusHead` identification packet
(version 1, mono, pre-skip, input rate, gain 0, channel map 0). -/
def opusHead (inputSampleRate : Nat) (channels : Nat := 1) (preSkip : Nat := 312) : List Nat :=
  [0x4F, 0x70, 0x75, 0x73, 0x48, 0x65, 0x61, 0x64] ++ [1, channels] ++ le16 preSkip
    ++ le32 inputSampleRate ++ [0, 0] ++ [0]

/-- `_opus_tags` from `audio.py` with the default vendor string
`"GhostType"` (9 ASCII bytes) and zero user comments. -/
def opusTags : List Nat :=
  [0x4F, 0x70, 0x75, 0x73, 0x54, 0x61, 0x67, 0x73] ++ le32 9
    ++ [0x47, 0x68, 0x6F, 0x73, 0x74, 0x54, 0x79, 0x70, 0x65] ++ le32 0

/-- The `while remaining >= 255` loop of `_segment_table_for_packet`
followed by the final lacing value (`remaining` if positive, else `0`).
The pattern `remaining + 255` matches exactly the `remaining >= 255`
iterations of the loop. -/
def segLacing : Nat → List Nat
  | remaining + 255 => 255 :: segLacing remaining
  | remaining => if remaining > 0 then [remaining] else [0]

/-- `_segment_table_for_packet` from `audio.py` (the `packet_len < 0`
guard is unrepresentable for `Nat` lengths). -/
def segmentTableForPacket (packetLen : Nat) : List Nat := segLacing packetLen

/-- `_build_ogg_page` from `audio.py`.  Errors model the two `raise`
statements (`granule_position < 0`, lacing longer than 255 entries) and
the `struct.pack "<Q"` overflow on a granule position that does not fit
in 64 bits.  `serial` and `sequence` are masked with `% 2^32` exactly as
the source masks them with `& 0xFFFF_FFFF`. -/
def buildOggPage (headerType : Nat) (granulePosition : Int) (serial : Nat) (sequence : Nat)
    (packet : List Nat) : Except String (List Nat) :=
  if granulePosition < 0 then .error "granule_position must be >= 0"
  else
    let lacing := segmentTableForPacket packet.length
    if lacing.length > 255 then .error "packet too large for single Ogg page in this MVP writer"
    else if granulePosition.toNat ≥ 2 ^ 64 then .error "struct.error: int too large for Q"
    else
      let header :=
        [0x4F, 0x67, 0x67, 0x53] ++ [0, headerType % 256]
          ++ le64 granulePosition.toNat ++ le32 (serial % 2 ^ 32) ++ le32 (sequence % 2 ^ 32)
          ++ le32 0 ++ [lacing.length] ++ lacing
      let page := header ++ packet
      let crc := oggCrc page
      .ok (page.take 22 ++ le32 crc ++ page.drop 26)

/-- `_SUPPORTED_OPUS_RATES` from `audio.py`. -/
def supportedOpusRates : List Int := [8000, 12000, 16000, 24000, 48000]

/-- The Opus pre-skip constant used by `packets_to_ogg_opus_bytes`. -/
def preSkip : Int := 312

/-- The audio-page loop of `packets_to_ogg_opus_bytes`: one page per
packet, cumulative granule incremented by `granuleStep` per packet,
effective granule `max 0 (granule - pre_skip)`, header type `0x04` on
the last packet only, sequence numbers counting up. -/
def muxAudioPages (granuleStep : Int) (serial : Nat) :
    List (List Nat) → Int → Nat → Except String (List (List Nat))
  | [], _, _ => .ok []
  | pkt :: rest, granule, seq => do
      let granule' := granule + granuleStep
      let page ← buildOggPage (if rest = [] then 0x04 else 0x00)
        (max 0 (granule' - preSkip)) serial seq pkt
      let pages ← muxAudioPages granuleStep serial rest granule' (seq + 1)
      .ok (page :: pages)

/-- `packets_to_ogg_opus_bytes` from `audio.py`, producing the list of
Ogg pages it appends to `out` (the byte stream is their concatenation,
see `packetsToOggOpusBytes`).  `serial` stands for the
`secrets.randbits(32)` draw, passed in as a parameter. -/
def packetsToOggOpusPages (opusPackets : List (List Nat)) (inputSampleRate : Int)
    (serial : Nat) : Except String (List (List Nat)) :=
  if inputSampleRate ∉ supportedOpusRates then
    .error "Unsupported sample rate"
  else
    let frameSamples := inputSampleRate / 50
    if frameSamples * 50 ≠ inputSampleRate then
      .error "unsupported input_sample_rate for 20ms frames"
    else if 48000 % inputSampleRate ≠ 0 then
      .error "unsupported input_sample_rate for Ogg/Opus granules"
    else
      let granuleStep := frameSamples * (48000 / inputSampleRate)
      do
        let p0 ← buildOggPage 0x02 0 serial 0 (opusHead inputSampleRate.toNat)
        let p1 ← buildOggPage 0x00 0 serial 1 opusTags
        let audio ← muxAudioPages granuleStep serial opusPackets 0 2
        .ok (p0 :: p1 :: audio)

/-- The byte stream returned by `packets_to_ogg_opus_bytes`. -/
def packetsToOggOpusBytes (opusPackets : List (List Nat)) (inputSampleRate : Int)
    (serial : Nat) : Except String (List Nat) :=
  (packetsToOggOpusPages opusPackets inputSampleRate serial).map List.flatten

/-- Byte 5 of an Ogg page: the header-type flag field. -/
def pageHeaderType (page : List Nat) : Nat := page.getD 5 0

/-- Bytes 6–13 of an Ogg page, decoded little-endian: the granule position. -/
def pageGranule (page : List Nat) : Nat := leDecode ((page.drop 6).take 8)

/-- Bytes 22–25 of an Ogg page, decoded little-endian: the stored CRC. -/
def pageStoredCrc (page : List Nat) : Nat := leDecode ((page.drop 22).take 4)

/-- The page with its CRC field zeroed, as the Ogg checksum rules require
during CRC computation. -/
def pageWithZeroCrc (page : List Nat) : List Nat :=
  page.take 22 ++ [0, 0, 0, 0] ++ page.drop 26

/-- Ogg CRC verification of one page: recomputing the CRC over the page
with the CRC field zeroed yields the stored CRC field. -/
def pageCrcOk (page : List Nat) : Prop := oggCrc (pageWithZeroCrc page) = pageStoredCrc page

/-- Byte 26 of an Ogg page: the number of segment-table entries. -/
def pageNumSegments (page : List Nat) : Nat := page.getD 26 0

/-- The segment table of an Ogg page (bytes 27 …). -/
def pageSegmentTable (page : List Nat) : List Nat :=
  (page.drop 27).take (pageNumSegments page)

/-- The body of an Ogg page: everything after the segment table. -/
def pageBody (page : List Nat) : List Nat := page.drop (27 + pageNumSegments page)

/-! ### Session core (`server/app/main.py`) -/

/-- `SessionState` from `main.py`.  The opaque `context` mapping is
modelled as an association list; the core never interprets it. -/
structure SessionState where
  trace_id : Option String := none
  sample_rate : Option Int := none
  context : List (String × String) := []
  use_cloud_api : Bool := false
  opus_packets : List (List Nat) := []
  packet_count : Nat := 0
  total_bytes : Nat := 0
  deriving Repr, DecidableEq

/-- `SessionState.reset_audio` from `main.py`: clear the packet buffer
and its derived counters, touch nothing else. -/
def SessionState.reset_audio (s : SessionState) : SessionState :=
  { s with opus_packets := [], packet_count := 0, total_bytes := 0 }

deriving instance DecidableEq for Except

/-- One inbound websocket message, as the receive loop of
`websocket_endpoint` classifies it.  `start` carries the optional
client-supplied trace id plus the value `_generate_trace_id()` would
return at that moment (the generator reads the clock, so the generated
id is passed in as data).  `stop` carries the outcome PyAV would
produce when decoding the Ogg mux of the currently buffered packets
(`decodeRes`): decoded PCM bytes on success, the exception text on
failure.  It is consulted only when the buffer is nonempty — an empty
buffer returns empty PCM without touching PyAV. -/
inductive InMsg where
  | ping
  | start (trace_id : Option String) (genId : String) (sample_rate : Int)
      (context : List (String × String)) (use_cloud_api : Bool)
  | stop (decodeRes : Except String (List Nat))
  | binary (data : List Nat)
  | badJson
  | unknown (msgType : String)
  deriving Repr, DecidableEq

/-- One outbound websocket message. -/
inductive OutMsg where
  | pong
  | fastText (trace_id : Option String) (content : String) (is_final : Bool)
  | errorMsg (trace_id : Option String) (message : String)
  deriving Repr, DecidableEq

/-- `_send_error` from `main.py`: the `trace_id` key is included only
when the Python value is truthy, i.e. not `None` and not `""`. -/
def sendError (trace_id : Option String) (message : String) : OutMsg :=
  .errorMsg (match trace_id with
    | some t => if t ≠ "" then some t else none
    | none => none) message

/-- `PcmAudio` from `audio.py`. -/
structure PcmAudio where
  pcm_s16le : List Nat
  sample_rate : Int := 16000
  channels : Nat := 1
  deriving Repr, DecidableEq

/-- `decode_opus_packets_to_pcm_s16le` from `audio.py` as invoked by
`handle_stop`: an empty packet list short-circuits to an empty PCM
buffer (before PyAV is ever touched); a nonempty list first muxes —
`ValueError`s from the muxer propagate — and then hands the Ogg bytes
to PyAV, whose outcome is supplied by the `decodeRes` oracle.  The
muxer's random serial does not influence whether it succeeds and is
fixed to 0 here. -/
def decodeOpusPacketsToPcm (packets : List (List Nat)) (rate : Int)
    (decodeRes : Except String (List Nat)) : Except String PcmAudio :=
  if packets = [] then .ok { pcm_s16le := [] }
  else
    match packetsToOggOpusBytes packets rate 0 with
    | .error e => .error e
    | .ok _ => decodeRes.map fun pcm => { pcm_s16le := pcm }

/-- `StubAsrEngine.transcribe` from `asr.py` (it never raises). -/
def stubTranscribe (audio_pcm : List Nat) (sample_rate : Int) : Except String String :=
  .ok s!"[pcm_bytes={audio_pcm.length} sr={sample_rate}]"

/-- The text of the `UnboundLocalError` raised by
`asr_ms = (t_asr1 - t_asr0) * 1000.0` in `handle_stop` when
`transcribe` raised, so `t_asr1` was never assigned (Python quotes the
variable name in its message; the quotes are elided here). -/
def unboundLocalMsg : String :=
  "cannot access local variable t_asr1 where it is not associated with a value"

/-- `handle_stop` from `main.py`, one invocation under the stop lock:
the new session state and the outbound messages in order.  When
`sample_rate` is unset, it sends the `stop before start` error and
resets the audio buffer.  Otherwise it decodes; a decode exception is
caught by the outer handler (`audio decode failed: …`).  When
`transcribe` raises, the inner handler sends `asr failed: …` and sets
the placeholder text, but the following `asr_ms = (t_asr1 - t_asr0)`
line raises `UnboundLocalError` (`t_asr1` is unassigned), which the
outer handler reports as `audio decode failed: …` — so no `fast_text`
is emitted on an inference failure.  The `finally` block resets the
audio buffer in every branch.  WAV dumping (`GHOSTTYPE_DUMP_WAV`) is
modelled as disabled. -/
def handleStop (transcribe : List Nat → Int → Except String String)
    (st : SessionState) (decodeRes : Except String (List Nat)) :
    SessionState × List OutMsg :=
  match st.sample_rate with
  | none => (st.reset_audio, [sendError st.trace_id "stop before start"])
  | some rate =>
    match decodeOpusPacketsToPcm st.opus_packets rate decodeRes with
    | .error e => (st.reset_audio, [sendError st.trace_id ("audio decode failed: " ++ e)])
    | .ok pcm =>
      match transcribe pcm.pcm_s16le pcm.sample_rate with
      | .error e =>
          (st.reset_audio,
            [sendError st.trace_id ("asr failed: " ++ e),
             sendError st.trace_id ("audio decode failed: " ++ unboundLocalMsg)])
      | .ok text => (st.reset_audio, [.fastText st.trace_id text true])

/-- One iteration of the `websocket_endpoint` receive loop of
`main.py`.  Binary frames are appended to the buffer unconditionally —
the loop has no state check on the `bytes` branch. -/
def wsStep (transcribe : List Nat → Int → Except String String)
    (st : SessionState) (m : InMsg) : SessionState × List OutMsg :=
  match m with
  | .ping => (st, [.pong])
  | .badJson => (st, [sendError st.trace_id "invalid json"])
  | .unknown t => (st, [sendError st.trace_id ("unknown type: " ++ t)])
  | .start trace_id genId sample_rate ctx use_cloud_api =>
      let newTid := match trace_id with
        | some t => if t.trim ≠ "" then t.trim else genId
        | none => genId
      (SessionState.reset_audio
        { st with trace_id := some newTid, sample_rate := some sample_rate,
                  context := ctx, use_cloud_api := use_cloud_api }, [])
  | .binary data =>
      ({ st with opus_packets := st.opus_packets ++ [data],
                 packet_count := st.packet_count + 1,
                 total_bytes := st.total_bytes + data.length }, [])
  | .stop decodeRes => handleStop transcribe st decodeRes

/-- Run the receive loop over a whole inbound message sequence,
collecting the outbound messages in order. -/
def wsRun (transcribe : List Nat → Int → Except String String) :
    SessionState → List InMsg → SessionState × List OutMsg
  | st, [] => (st, [])
  | st, m :: ms =>
      let step := wsStep transcribe st m
      let rest := wsRun transcribe step.1 ms
      (rest.1, step.2 ++ rest.2)

/-- Is an outbound message a `fast_text`? -/
def isFastText : OutMsg → Bool
  | .fastText _ _ _ => true
  | _ => false

/-- Number of `fast_text` messages in an outbound sequence. -/
def countFastText (outs : List OutMsg) : Nat := outs.countP isFastText

/-- Number of `stop` messages handled while the session is Capturing —
in this code, while `sample_rate` is set (there is no explicit
lifecycle enum; a `stop` is accepted exactly when `sample_rate` is not
`None`). -/
def acceptedStops (transcribe : List Nat → Int → Except String String) :
    SessionState → List InMsg → Nat
  | _, [] => 0
  | st, m :: ms =>
      (match m with
        | .stop _ => if st.sample_rate.isSome then 1 else 0
        | _ => 0) + acceptedStops transcribe (wsStep transcribe st m).1 ms

/-- Number of `stop` messages handled in Capturing state whose audio
decode and inference both succeeded. -/
def successfulStops (transcribe : List Nat → Int → Except String String) :
    SessionState → List InMsg → Nat
  | _, [] => 0
  | st, m :: ms =>
      (match m with
        | .stop decodeRes =>
          match st.sample_rate with
          | none => 0
          | some rate =>
            match decodeOpusPacketsToPcm st.opus_packets rate decodeRes with
            | .error _ => 0
            | .ok pcm =>
              match transcribe pcm.pcm_s16le pcm.sample_rate with
              | .error _ => 0
              | .ok _ => 1
        | _ => 0) + successfulStops transcribe (wsStep transcribe st m).1 ms

/-! ### Feature front-end (`server/app/core/fbank.py`)

The DSP is embedded over `ℝ` (the float32 arithmetic of the source is
modelled exactly on the reals); the claims proved about it concern
shapes, which do not depend on rounding. -/

/-- `hz_to_mel` inside `_mel_filterbank`: `1127 * log1p(hz / 700)`. -/
noncomputable def hzToMel (hz : ℝ) : ℝ := 1127 * Real.log (1 + hz / 700)

/-- `mel_to_hz` inside `_mel_filterbank`: `700 * expm1(mel / 1127)`. -/
noncomputable def melToHz (mel : ℝ) : ℝ := 700 * (Real.exp (mel / 1127) - 1)

/-- `np.linspace lo hi n` for `n ≥ 2` (the source uses `n_mels + 2`). -/
noncomputable def linspace (lo hi : ℝ) (n : Nat) : List ℝ :=
  (List.range n).map fun i => lo + (hi - lo) * i / (n - 1)

/-- The clipped bin edges of `_mel_filterbank`:
`floor((n_fft + 1) * hz / sample_rate)` clipped to `[0, n_freq - 1]`. -/
noncomputable def melBins (sample_rate n_fft n_mels : Nat) (f_min f_max : ℝ) : List Int :=
  (linspace (hzToMel f_min) (hzToMel f_max) (n_mels + 2)).map fun mel =>
    min (max (⌊(n_fft + 1 : ℝ) * melToHz mel / sample_rate⌋) 0) ((n_fft / 2 + 1 : Nat) - 1)

/-- `_mel_filterbank` from `fbank.py`: an `n_mels × n_freq` matrix of
triangular filters with unit peak; a degenerate filter (equal bin edges
on either side) is an all-zero row. -/
noncomputable def melFilterbank (sample_rate n_fft n_mels : Nat) (f_min f_max : ℝ) :
    List (List ℝ) :=
  let n_freq := n_fft / 2 + 1
  let bins := melBins sample_rate n_fft n_mels f_min f_max
  (List.range n_mels).map fun m =>
    let left := bins.getD m 0
    let center := bins.getD (m + 1) 0
    let right := bins.getD (m + 2) 0
    (List.range n_freq).map fun k =>
      if center = left ∨ right = center then 0
      else if left ≤ (k : Int) ∧ (k : Int) < center then
        ((k : ℝ) - (left : ℝ)) / ((center : ℝ) - (left : ℝ))
      else if center ≤ (k : Int) ∧ (k : Int) < right then
        ((right : ℝ) - (k : ℝ)) / ((right : ℝ) - (center : ℝ))
      else 0

/-- `_hamming_window` from `fbank.py` (`np.hamming`; `np.hamming 1`
is `[1]`, `np.hamming 0` is empty). -/
noncomputable def hammingWindow (frame_length : Nat) : List ℝ :=
  if frame_length = 1 then [1]
  else (List.range frame_length).map fun i =>
    0.54 - 0.46 * Real.cos (2 * Real.pi * i / (frame_length - 1))

/-- `_frame_waveform` from `fbank.py`: zero-pad an input shorter than
one frame up to `frame_length`, compute
`num_frames = 1 + (len - frame_length) / frame_shift`, zero-pad the
tail to `(num_frames - 1) * frame_shift + frame_length`, and take the
strided frames. -/
noncomputable def frameWaveform (waveform : List ℝ) (frame_length frame_shift : Nat) :
    Except String (List (List ℝ)) :=
  if frame_length = 0 ∨ frame_shift = 0 then .error "frame_length/frame_shift must be > 0"
  else
    let w1 := if waveform.length < frame_length then
        waveform ++ List.replicate (frame_length - waveform.length) 0
      else waveform
    let num_frames := 1 + (w1.length - frame_length) / frame_shift
    let total_len := (num_frames - 1) * frame_shift + frame_length
    let w2 := if w1.length < total_len then
        w1 ++ List.replicate (total_len - w1.length) 0
      else w1
    .ok ((List.range num_frames).map fun i => (w2.drop (i * frame_shift)).take frame_length)

/-- `np.fft.rfft(frame, n=512)` followed by `re² + im²`: one power-
spectrum row of length `n_fft/2 + 1` (the sign convention of the
imaginary part is irrelevant under the square). -/
noncomputable def powerSpectrumRow (frame : List ℝ) (n_fft : Nat) : List ℝ :=
  let x := frame.take n_fft ++ List.replicate (n_fft - frame.length) 0
  (List.range (n_fft / 2 + 1)).map fun k =>
    (((List.range n_fft).map fun (j : Nat) =>
        x.getD j 0 * Real.cos (2 * Real.pi * j * k / n_fft)).sum) ^ 2
      + (((List.range n_fft).map fun (j : Nat) =>
        x.getD j 0 * Real.sin (2 * Real.pi * j * k / n_fft)).sum) ^ 2

/-- Dot product, for the row-by-filter products of `power @ fb.T`. -/
noncomputable def dotR (xs ys : List ℝ) : ℝ := (xs.zipWith (· * ·) ys).sum

/-- `int(round(sample_rate * ms / 1000))` from `log_mel_fbank`,
rounding half up (Python `round` rounds half to even; the two agree
away from exact halves, and at every Opus rate the products are
integral). -/
def frameParam (sample_rate ms : Nat) : Nat := (sample_rate * ms + 500) / 1000

/-- `log_mel_fbank` from `fbank.py` with its default parameters
(`frame_length_ms = 25`, `frame_shift_ms = 10`, `n_fft = 512`,
`f_min = 0`, `f_max = sample_rate / 2`): framing, Hamming window,
power spectrum, mel filterbank, floor at `1e-10`, natural log. -/
noncomputable def logMelFbank (waveform : List ℝ) (sample_rate n_mels : Nat) :
    Except String (List (List ℝ)) :=
  let frame_length := frameParam sample_rate 25
  let frame_shift := frameParam sample_rate 10
  if frame_length = 0 ∨ frame_shift = 0 then .error "invalid frame_length_ms/frame_shift_ms"
  else
    match frameWaveform waveform frame_length frame_shift with
    | .error e => .error e
    | .ok frames =>
      let windowed := frames.map fun fr => fr.zipWith (· * ·) (hammingWindow frame_length)
      let power := windowed.map fun fr => powerSpectrumRow fr 512
      let fb := melFilterbank sample_rate 512 n_mels 0 ((sample_rate : ℝ) / 2)
      .ok (power.map fun row => fb.map fun filt => Real.log (max (dotR row filt) 1e-10))

/-- One iteration body of the `while idx < t` loop of `apply_lfr`:
`features[idx : idx + lfr_m]`, padded by repeating the last row when
fewer than `lfr_m` rows remain, flattened row-major. -/
noncomputable def lfrChunk (feats : List (List ℝ)) (lfr_m idx : Nat) : List ℝ :=
  let chunk := (feats.drop idx).take lfr_m
  (chunk ++ List.replicate (lfr_m - chunk.length) (chunk.getLastD [])).flatten

/-- The `while idx < t` loop of `apply_lfr`; the step is
`nPred + 1 = lfr_n` (kept positive by construction so the loop
terminates, exactly as the `lfr_n <= 0` guard in the source ensures). -/
noncomputable def lfrLoop (feats : List (List ℝ)) (lfr_m nPred t : Nat) : Nat → List (List ℝ)
  | idx =>
    if idx < t then lfrChunk feats lfr_m idx :: lfrLoop feats lfr_m nPred t (idx + (nPred + 1))
    else []
  termination_by idx => t - idx
  decreasing_by omega

/-- `apply_lfr` from `fbank.py`. -/
noncomputable def applyLfr (feats : List (List ℝ)) (lfr_m lfr_n : Nat) :
    Except String (List (List ℝ)) :=
  match lfr_m, lfr_n with
  | 0, _ => .error "lfr_m/lfr_n must be > 0"
  | _ + 1, 0 => .error "lfr_m/lfr_n must be > 0"
  | _ + 1, nPred + 1 =>
    if feats.length = 0 then .ok []
    else .ok (lfrLoop feats lfr_m nPred feats.length 0)

/-- `apply_cmvn` from `fbank.py`: `(x + neg_mean) * inv_stddev`
row-wise.  numpy's guarantee that all rows share one width is modelled
by checking every row against the CMVN vector length. -/
noncomputable def applyCmvn (feats : List (List ℝ)) (neg_mean inv_stddev : List ℝ) :
    Except String (List (List ℝ)) :=
  if ¬ (feats.all fun row => row.length = neg_mean.length)
      ∨ neg_mean.length ≠ inv_stddev.length then
    .error "cmvn vectors must match feature dimension"
  else .ok (feats.map fun row => (row.zipWith (· + ·) neg_mean).zipWith (· * ·) inv_stddev)

/-- `np.frombuffer(pcm, dtype=np.int16)`: little-endian byte pairs as
signed 16-bit values; an odd byte count raises. -/
def bytesToI16 : List Nat → Except String (List Int)
  | [] => .ok []
  | [_] => .error "buffer size must be a multiple of element size"
  | lo :: hi :: rest =>
    (bytesToI16 rest).map fun xs =>
      (if lo + 256 * hi < 32768 then ((lo + 256 * hi : Nat) : Int)
       else ((lo + 256 * hi : Nat) : Int) - 65536) :: xs

/-- `sensevoice_ctc_features` from `fbank.py`: raw s16 samples cast to
float (no `/ 32768` scaling), log-mel filterbank, LFR stacking, CMVN;
returns the feature matrix and `x_len = feats.shape[0]`. -/
noncomputable def sensevoiceCtcFeatures (pcm_s16le : List Nat) (sample_rate n_mels lfr_m lfr_n : Nat)
    (cmvn_neg_mean cmvn_inv_stddev : List ℝ) : Except String (List (List ℝ) × Nat) :=
  match bytesToI16 pcm_s16le with
  | .error e => .error e
  | .ok ints =>
    let waveform := ints.map fun v => (v : ℝ)
    match logMelFbank waveform sample_rate n_mels with
    | .error e => .error e
    | .ok fbanks =>
      match applyLfr fbanks lfr_m lfr_n with
      | .error e => .error e
      | .ok lfr =>
        match applyCmvn lfr cmvn_neg_mean cmvn_inv_stddev with
        | .error e => .error e
        | .ok feats => .ok (feats, feats.length)

/-- The `sense_voice_ctc` branch of `SenseVoiceEngine._transcribe_sync`
up to and including its early-return guard: `none` when
`if x_len == 0: return ""` fires (no inference), `some x_len` when the
code continues to `self.session.run`. -/
noncomputable def ctcInferenceCall (pcm : List Nat) (sample_rate n_mels lfr_m lfr_n : Nat)
    (neg_mean inv_stddev : List ℝ) : Except String (Option Nat) :=
  (sensevoiceCtcFeatures pcm sample_rate n_mels lfr_m lfr_n neg_mean inv_stddev).map
    fun fx => if fx.2 = 0 then none else some fx.2

/-! ### Python strings (`List Char` model)

`asr.py` manipulates Python strings; they are modelled as `List Char`
so that every operation is structurally recursive and kernel-
evaluable.  Only the constructs the source uses are modelled:
`splitlines` (with `\\n` terminators — the source files and the
serialization in claim C9 use none of the exotic terminators),
`strip`/`split`/`rsplit` with Python\'s 6-character whitespace class,
`int()` on optionally signed decimals (underscores are not modelled),
and `str.replace` with a nonempty pattern. -/

/-- A Python string. -/
abbrev PyStr := List Char

/-- The code points of Python\'s `str` whitespace class (`str.isspace()`
on single characters), the class used by `strip()`, `split()` and
`rsplit()` with no separator: the ASCII controls 09-0D and 1C-1F, the
space, NEL, NBSP, and the Unicode space separators. -/
def pyWsCodes : List Nat :=
  [0x09, 0x0a, 0x0b, 0x0c, 0x0d, 0x1c, 0x1d, 0x1e, 0x1f, 0x20, 0x85, 0xa0, 0x1680,
   0x2000, 0x2001, 0x2002, 0x2003, 0x2004, 0x2005, 0x2006, 0x2007, 0x2008, 0x2009,
   0x200a, 0x2028, 0x2029, 0x202f, 0x205f, 0x3000]

/-- Python\'s `str` whitespace class. -/
def isPyWs (c : Char) : Bool := c.toNat ∈ pyWsCodes

/-- `str.strip()`: drop whitespace from both ends. -/
def pyStrip (s : PyStr) : PyStr :=
  ((s.dropWhile isPyWs).reverse.dropWhile isPyWs).reverse

/-- The code points `str.splitlines()` treats as line boundaries
(besides the two-character boundary `\\r\\n`, handled separately):
LF, VT, FF, CR, FS, GS, RS, NEL, LINE SEPARATOR, PARAGRAPH SEPARATOR. -/
def lineBreakCodes : List Nat :=
  [0x0a, 0x0b, 0x0c, 0x0d, 0x1c, 0x1d, 0x1e, 0x85, 0x2028, 0x2029]

/-- A single-character `str.splitlines()` line boundary. -/
def isLineBreak (c : Char) : Bool := c.toNat ∈ lineBreakCodes

/-- Accumulator loop for `str.splitlines()`: any line-boundary
character terminates a line, `\\r\\n` counts as one boundary (`afterCR`
records that the previous character was a line-terminating `\\r`, so a
directly following `\\n` is swallowed), and a final unterminated
nonempty segment is also a line. -/
def pySplitlinesAux (afterCR : Bool) (cur : PyStr) : PyStr → List PyStr
  | [] => if cur.isEmpty then [] else [cur.reverse]
  | c :: rest =>
    if afterCR ∧ c = '\n' then pySplitlinesAux false [] rest
    else if c = '\r' then cur.reverse :: pySplitlinesAux true [] rest
    else if isLineBreak c then cur.reverse :: pySplitlinesAux false [] rest
    else pySplitlinesAux false (c :: cur) rest

/-- `str.splitlines()`. -/
def pySplitlines (s : PyStr) : List PyStr := pySplitlinesAux false [] s

/-- `str.rsplit(maxsplit=1)` with no separator: strip trailing
whitespace, split off the last whitespace-delimited word; one part
when nothing (or only whitespace) precedes it, no parts for an all-
whitespace string. -/
def pyRsplit1 (s : PyStr) : List PyStr :=
  let r := s.reverse.dropWhile isPyWs
  if r = [] then []
  else
    let word := r.takeWhile fun c => !isPyWs c
    let rest2 := (r.dropWhile fun c => !isPyWs c).dropWhile isPyWs
    if rest2 = [] then [word.reverse] else [rest2.reverse, word.reverse]

/-- Digit-accumulating loop of `int()`. -/
def digitsValAux (acc : Nat) : PyStr → Option Nat
  | [] => some acc
  | c :: rest =>
    if c.isDigit then digitsValAux (acc * 10 + (c.toNat - 48)) rest else none

/-- Sign-and-digits core of `int()`, applied to the stripped string. -/
def pyIntCore : PyStr → Option Int
  | [] => none
  | c :: rest =>
    if c = '-' then
      if rest = [] then none else (digitsValAux 0 rest).map fun v => -(v : Int)
    else if c = '+' then
      if rest = [] then none else (digitsValAux 0 rest).map fun v => (v : Int)
    else (digitsValAux 0 (c :: rest)).map fun v => (v : Int)

/-- Python `int(str)`: optional surrounding whitespace, optional sign,
a nonempty run of decimal digits. -/
def pyInt (s : PyStr) : Option Int := pyIntCore (pyStrip s)

/-- Decimal rendering of a natural number (`str(i)` for `i >= 0`),
with a structural fuel so the kernel can evaluate it; `n + 1` units of
fuel always suffice. -/
def natReprAux : Nat → Nat → PyStr
  | 0, _ => []
  | fuel + 1, n =>
    if n < 10 then [Char.ofNat (48 + n)]
    else natReprAux fuel (n / 10) ++ [Char.ofNat (48 + n % 10)]

/-- `str(n)` for a natural number. -/
def natRepr (n : Nat) : PyStr := natReprAux (n + 1) n

/-- `str.replace(old, new)` for a nonempty `old`, scanning left to
right over non-overlapping occurrences; the fuel is structural and one
unit per consumed character suffices.  (Python\'s empty-pattern
interspersing is not modelled; the source only replaces nonempty
patterns.) -/
def pyReplaceFuel (old rep : PyStr) : Nat → PyStr → PyStr
  | _, [] => []
  | 0, s => s
  | fuel + 1, c :: rest =>
    if old ≠ [] ∧ old.isPrefixOf (c :: rest) then
      rep ++ pyReplaceFuel old rep fuel ((c :: rest).drop old.length)
    else c :: pyReplaceFuel old rep fuel rest

/-- `str.replace(old, new)`. -/
def pyReplace (s old rep : PyStr) : PyStr := pyReplaceFuel old rep s.length s

/-! ### CTC decoding (`_decode_token_ids` in `asr.py`) -/

/-- The special strings suppressed during detokenization. -/
def specialTokens : List PyStr :=
  ["<blank>".data, "<pad>".data, "<s>".data, "</s>".data, "<eos>".data, "<bos>".data]

/-- State of the collapsing loop of `_decode_token_ids`: the `prev`
variable and the `out_tokens` accumulator. -/
structure DecodeState where
  prev : Option Int := none
  out_tokens : List PyStr := []
  deriving Repr, DecidableEq

/-- One iteration of the token loop of `_decode_token_ids`
(`blank_id = 0`): a blank sets `prev` and emits nothing; an immediate
repeat of `prev` is skipped; otherwise `prev` is updated and the token
is emitted unless its id is out of range or its string is special. -/
def decodeStep (token_list : List PyStr) (s : DecodeState) (tid : Int) : DecodeState :=
  if tid = 0 then { s with prev := some 0 }
  else if s.prev = some tid then s
  else
    let s1 := { s with prev := some tid }
    if tid < 0 ∨ (token_list.length : Int) ≤ tid then s1
    else
      let tok := token_list.getD tid.toNat []
      if tok ∈ specialTokens then s1
      else { s1 with out_tokens := s1.out_tokens ++ [tok] }

/-- Accumulator loop for `str.split()` with no separator: maximal
whitespace-free words, no empty pieces. -/
def pySplitWsAux (cur : PyStr) : PyStr → List PyStr
  | [] => if cur.isEmpty then [] else [cur.reverse]
  | c :: rest =>
    if isPyWs c then
      if cur.isEmpty then pySplitWsAux [] rest
      else cur.reverse :: pySplitWsAux [] rest
    else pySplitWsAux (c :: cur) rest

/-- `str.split()` with no separator. -/
def pySplitWs (s : PyStr) : List PyStr := pySplitWsAux [] s

/-- `" ".join(text.split())`: split on whitespace runs and re-join
with single spaces. -/
def pyJoinSplit (text : PyStr) : PyStr :=
  List.intercalate " ".data (pySplitWs text)

/-- `_decode_token_ids` from `asr.py`: collapse, concatenate, replace
`U+2581` and `"<space>"` with ASCII spaces, collapse whitespace runs,
strip. -/
def decodeTokenIds (token_ids : List Int) (token_list : List PyStr) : PyStr :=
  let final := token_ids.foldl (decodeStep token_list) {}
  let text := final.out_tokens.flatten
  let text := pyReplace (pyReplace text "\u2581".data " ".data) "<space>".data " ".data
  pyStrip (pyJoinSplit text)

/-! ### Vocabulary-file parsing (`_parse_token_file` in `asr.py`) -/

/-- The per-line loop of `_parse_token_file`: `line.rsplit(maxsplit=1)`
must give exactly two parts whose second parses with `int()`; any
failure empties `pairs` (the Python loop breaks with `pairs = []`), so
the result is all-or-nothing. -/
def parsePairs : List PyStr → Option (List (Int × PyStr))
  | [] => some []
  | line :: rest =>
    match pyRsplit1 line with
    | [tok, idx] =>
      match pyInt idx with
      | some i => (parsePairs rest).map fun ps => (i, tok) :: ps
      | none => none
    | _ => none

/-- The pair-form construction of `_parse_token_file`:
`out = [""] * (max_id + 1)` (empty when `max_id + 1 <= 0`), then each
in-range id overwrites its slot. -/
def buildFromPairs : List (Int × PyStr) → List PyStr
  | [] => []
  | p :: rest =>
    let max_id := ((p :: rest).map Prod.fst).foldl max p.1
    let out : List PyStr := List.replicate (max_id + 1).toNat []
    (p :: rest).foldl
      (fun o q => if 0 ≤ q.1 ∧ q.1 < (o.length : Int) then o.set q.1.toNat q.2 else o) out

/-- `_parse_token_file` from `asr.py`: strip the lines, drop empty
ones, `None` when nothing remains; if every line parses as
`<token> <id>`, build the pair-form array, else return the lines
themselves. -/
def parseTokenFile (content : PyStr) : Option (List PyStr) :=
  let lines := ((pySplitlines content).map pyStrip).filter fun l => l ≠ []
  if lines = [] then none
  else
    match parsePairs lines with
    | none => some lines
    | some prs => some (buildFromPairs prs)

/-- Python `sep.join(parts)`. -/
def pyJoin (sep : PyStr) : List PyStr → PyStr
  | [] => []
  | [x] => x
  | x :: y :: rest => x ++ sep ++ pyJoin sep (y :: rest)

/-- The serialization named by claim C9: one `<tok> <i>` line per
vocabulary entry, joined with newlines. -/
def serializeVocab (v : List PyStr) : PyStr :=
  pyJoin "\n".data (v.enum.map fun p => p.2 ++ ' ' :: natRepr p.1)

/-- A vocabulary token for which `<tok> <i>` serialization is
invertible: nonempty, free of line-boundary characters, and without
leading or trailing whitespace. -/
def goodToken (t : PyStr) : Bool :=
  !t.isEmpty && t.all (fun c => !isLineBreak c) &&
    !isPyWs (t.headD 'x') && !isPyWs (t.getLastD 'x')


/-- The final form of a successful `_build_ogg_page` call: 22 header
bytes, the CRC field, the segment count, the segment table, the packet. -/
def mkPage (headerType : Nat) (granule : Nat) (serial : Nat) (sequence : Nat)
    (packet : List Nat) : List Nat :=
  let lacing := segmentTableForPacket packet.length
  let pre := [0x4F, 0x67, 0x67, 0x53, 0, headerType % 256] ++ le64 granule
    ++ le32 (serial % 2 ^ 32) ++ le32 (sequence % 2 ^ 32)
  let rest := [lacing.length] ++ lacing ++ packet
  pre ++ le32 (oggCrc (pre ++ le32 0 ++ rest)) ++ rest

/-- `mkPage` with the CRC field still zero: the byte string the CRC is
computed over. -/
def mkPageZeroed (headerType : Nat) (granule : Nat) (serial : Nat) (sequence : Nat)
    (packet : List Nat) : List Nat :=
  let lacing := segmentTableForPacket packet.length
  let pre := [0x4F, 0x67, 0x67, 0x53, 0, headerType % 256] ++ le64 granule
    ++ le32 (serial % 2 ^ 32) ++ le32 (sequence % 2 ^ 32)
  let rest := [lacing.length] ++ lacing ++ packet
  pre ++ le32 0 ++ rest

/-- Closed form of the pages produced by the audio-page loop of
`packets_to_ogg_opus_bytes` (all supported rates share
`granule_step = R/50 * (48000/R) = 960`). -/
def audioPagesSpec (serial : Nat) :
    List (List Nat) → Int → Nat → List (List Nat)
  | [], _, _ => []
  | pkt :: rest, granule, seq =>
      mkPage (if rest = [] then 0x04 else 0x00) (max 0 (granule + 960 - preSkip)).toNat
        serial seq pkt :: audioPagesSpec serial rest (granule + 960) (seq + 1)

/-! ### Muxer lemmas -/

theorem segLacing_eq (n : Nat) :
    segLacing n = List.replicate (n / 255) 255 ++ [n % 255] := by
  induction n using Nat.strong_induction_on with
  | _ n ih =>
    by_cases h : 255 ≤ n
    · obtain ⟨m, rfl⟩ : ∃ m, n = m + 255 := ⟨n - 255, by omega⟩
      rw [show segLacing (m + 255) = 255 :: segLacing m from rfl, ih m (by omega)]
      have h1 : (m + 255) / 255 = m / 255 + 1 := by omega
      have h2 : (m + 255) % 255 = m % 255 := by omega
      rw [h1, h2, List.replicate_succ]
      simp
    · have hsmall : ∀ k < 255, segLacing k = if 0 < k then [k] else [0] := by decide
      rw [hsmall n (by omega)]
      have h1 : n / 255 = 0 := by omega
      have h2 : n % 255 = n := by omega
      split
      · simp [h1, h2]
      · have h3 : n = 0 := by omega
        simp [h1, h3]

theorem segmentTable_eq (n : Nat) :
    segmentTableForPacket n = List.replicate (n / 255) 255 ++ [n % 255] :=
  segLacing_eq n

theorem segmentTable_length (n : Nat) :
    (segmentTableForPacket n).length = n / 255 + 1 := by
  simp [segmentTable_eq]

@[simp] theorem le16_length (n : Nat) : (le16 n).length = 2 := rfl

@[simp] theorem le32_length (n : Nat) : (le32 n).length = 4 := rfl

@[simp] theorem le64_length (n : Nat) : (le64 n).length = 8 := rfl

theorem leDecode_le32 (n : Nat) (h : n < 2 ^ 32) : leDecode (le32 n) = n := by
  simp only [le32, leDecode, List.foldr]
  omega

theorem leDecode_le64 (n : Nat) (h : n < 2 ^ 64) : leDecode (le64 n) = n := by
  simp only [le64, leDecode, List.foldr]
  omega

theorem crcTableStep_lt (r : Nat) : crcTableStep r < 2 ^ 32 := by
  unfold crcTableStep
  split
  · exact Nat.xor_lt_two_pow (Nat.mod_lt _ (by norm_num)) (by norm_num [oggCrcPoly])
  · exact Nat.mod_lt _ (by norm_num)

theorem crcEntry_lt (i : Nat) : crcEntry i < 2 ^ 32 := by
  unfold crcEntry
  rw [show (8 : Nat) = 7 + 1 from rfl, Function.iterate_succ_apply']
  exact crcTableStep_lt _

theorem crcTable_getD_lt (i : Nat) : oggCrcTable.getD i 0 < 2 ^ 32 := by
  by_cases hi : i < oggCrcTable.length
  · rw [List.getD_eq_getElem oggCrcTable 0 hi]
    simp only [oggCrcTable, List.getElem_map, List.getElem_range]
    exact crcEntry_lt _
  · rw [List.getD_eq_default oggCrcTable 0 (by omega)]
    norm_num

theorem oggCrc_foldl_lt (page : List Nat) : ∀ crc, crc < 2 ^ 32 →
    page.foldl (fun crc b =>
      (crc <<< 8) % 2 ^ 32 ^^^ oggCrcTable.getD ((crc >>> 24) % 256 ^^^ b) 0) crc < 2 ^ 32 := by
  induction page with
  | nil => intro crc hc; simpa using hc
  | cons b rest ih =>
    intro crc _
    exact ih _ (Nat.xor_lt_two_pow (Nat.mod_lt _ (by norm_num)) (crcTable_getD_lt _))

theorem oggCrc_lt (page : List Nat) : oggCrc page < 2 ^ 32 :=
  oggCrc_foldl_lt page 0 (by norm_num)


theorem mkPage_pre_length (ht g s q : Nat) :
    ([0x4F, 0x67, 0x67, 0x53, 0, ht % 256] ++ le64 g ++ le32 (s % 2 ^ 32)
      ++ le32 (q % 2 ^ 32)).length = 22 := by
  simp

theorem buildOggPage_ok (ht : Nat) (g : Int) (serial seq : Nat) (pkt : List Nat)
    (hg : 0 ≤ g) (hlac : (segmentTableForPacket pkt.length).length ≤ 255)
    (h64 : g.toNat < 2 ^ 64) :
    buildOggPage ht g serial seq pkt = .ok (mkPage ht g.toNat serial seq pkt) := by
  unfold buildOggPage
  rw [if_neg (by omega), if_neg (by omega), if_neg (by omega)]
  unfold mkPage
  congr 1

theorem buildOggPage_error (ht : Nat) (g : Int) (serial seq : Nat) (pkt : List Nat)
    (hlac : 255 < (segmentTableForPacket pkt.length).length) :
    ∀ e, buildOggPage ht g serial seq pkt ≠ .ok e := by
  intro e
  unfold buildOggPage
  split
  · simp
  · rw [if_pos (by omega)]
    simp


theorem mkPage_headerType (ht g s q : Nat) (pkt : List Nat) :
    pageHeaderType (mkPage ht g s q pkt) = ht % 256 := rfl

theorem mkPage_numSegments (ht g s q : Nat) (pkt : List Nat) :
    pageNumSegments (mkPage ht g s q pkt) = (segmentTableForPacket pkt.length).length := rfl

theorem mkPage_granule (ht g s q : Nat) (pkt : List Nat) (h : g < 2 ^ 64) :
    pageGranule (mkPage ht g s q pkt) = g := by
  show leDecode (le64 g) = g
  exact leDecode_le64 g h

theorem mkPage_withZeroCrc (ht g s q : Nat) (pkt : List Nat) :
    pageWithZeroCrc (mkPage ht g s q pkt) = mkPageZeroed ht g s q pkt := rfl

theorem mkPage_storedCrc (ht g s q : Nat) (pkt : List Nat) :
    pageStoredCrc (mkPage ht g s q pkt) = oggCrc (mkPageZeroed ht g s q pkt) := by
  show leDecode (le32 (oggCrc (mkPageZeroed ht g s q pkt))) = oggCrc (mkPageZeroed ht g s q pkt)
  exact leDecode_le32 _ (oggCrc_lt _)

theorem mkPage_crcOk (ht g s q : Nat) (pkt : List Nat) : pageCrcOk (mkPage ht g s q pkt) := by
  unfold pageCrcOk
  rw [mkPage_withZeroCrc, mkPage_storedCrc]

theorem mkPage_decomp (ht g s q : Nat) (pkt : List Nat) :
    mkPage ht g s q pkt =
      ([0x4F, 0x67, 0x67, 0x53, 0, ht % 256] ++ le64 g ++ le32 (s % 2 ^ 32)
        ++ le32 (q % 2 ^ 32) ++ le32 (oggCrc (mkPageZeroed ht g s q pkt))
        ++ [(segmentTableForPacket pkt.length).length])
      ++ segmentTableForPacket pkt.length ++ pkt := by
  simp [mkPage, mkPageZeroed, List.append_assoc]

theorem mkPage_segmentTable (ht g s q : Nat) (pkt : List Nat) :
    pageSegmentTable (mkPage ht g s q pkt) = segmentTableForPacket pkt.length := by
  unfold pageSegmentTable
  rw [mkPage_numSegments]
  conv_lhs => rw [mkPage_decomp, List.append_assoc]
  rw [List.drop_left' (by simp), List.take_left]

theorem mkPage_body (ht g s q : Nat) (pkt : List Nat) :
    pageBody (mkPage ht g s q pkt) = pkt := by
  unfold pageBody
  rw [mkPage_numSegments]
  conv_lhs => rw [mkPage_decomp, List.append_assoc]
  rw [show 27 + (segmentTableForPacket pkt.length).length
      = ([0x4F, 0x67, 0x67, 0x53, 0, ht % 256] ++ le64 g ++ le32 (s % 2 ^ 32)
        ++ le32 (q % 2 ^ 32) ++ le32 (oggCrc (mkPageZeroed ht g s q pkt))
        ++ [(segmentTableForPacket pkt.length).length]).length
        + (segmentTableForPacket pkt.length).length by simp]
  rw [List.drop_append, List.drop_left]


theorem muxAudioPages_ok (serial : Nat) (pkts : List (List Nat)) :
    ∀ (g : Int) (seq : Nat), 0 ≤ g →
    g + pkts.length * 960 < 2 ^ 64 →
    (∀ pkt ∈ pkts, (segmentTableForPacket pkt.length).length ≤ 255) →
    muxAudioPages 960 serial pkts g seq = .ok (audioPagesSpec serial pkts g seq) := by
  induction pkts with
  | nil => intro g seq _ _ _; rfl
  | cons pkt rest ih =>
    intro g seq hg hbound hpk
    have hrest : (rest.length : Int) * 960 ≥ 0 := by positivity
    simp only [List.length_cons, Nat.cast_add, Nat.cast_one] at hbound
    simp only [muxAudioPages, audioPagesSpec]
    rw [buildOggPage_ok _ _ _ _ _ (le_max_left _ _) (hpk pkt (by simp))
      (by simp only [preSkip]; omega)]
    simp only [bind, Except.bind]
    rw [ih (g + 960) (seq + 1) (by omega) (by push_cast; omega)
      (fun p hp => hpk p (by simp [hp]))]

theorem audioPagesSpec_length (serial : Nat) (pkts : List (List Nat)) :
    ∀ g seq, (audioPagesSpec serial pkts g seq).length = pkts.length := by
  induction pkts with
  | nil => intro g seq; rfl
  | cons pkt rest ih => intro g seq; simp [audioPagesSpec, ih]

theorem audioPagesSpec_crcOk (serial : Nat) (pkts : List (List Nat)) :
    ∀ g seq, ∀ p ∈ audioPagesSpec serial pkts g seq, pageCrcOk p := by
  induction pkts with
  | nil => intro g seq p hp; simp [audioPagesSpec] at hp
  | cons pkt rest ih =>
    intro g seq p hp
    simp only [audioPagesSpec, List.mem_cons] at hp
    rcases hp with rfl | hp
    · exact mkPage_crcOk _ _ _ _ _
    · exact ih _ _ p hp

theorem audioPagesSpec_headerType (serial : Nat) (pkts : List (List Nat)) :
    ∀ g seq i, i < pkts.length →
      pageHeaderType ((audioPagesSpec serial pkts g seq).getD i []) =
        if i = pkts.length - 1 then 0x04 else 0x00 := by
  induction pkts with
  | nil => intro g seq i hi; exact absurd hi (by simp)
  | cons pkt rest ih =>
    intro g seq i hi
    match i with
    | 0 =>
      simp only [audioPagesSpec, List.getD_cons_zero, mkPage_headerType]
      rcases rest with _ | ⟨r, rs⟩
      · rfl
      · rw [if_neg (by simp)]
        simp
    | i + 1 =>
      have hi' : i < rest.length := by simpa using hi
      simp only [audioPagesSpec, List.getD_cons_succ]
      rw [ih _ _ i hi']
      have hiff : (i = rest.length - 1) ↔ (i + 1 = (pkt :: rest).length - 1) := by
        simp only [List.length_cons]
        omega
      rw [if_congr hiff rfl rfl]

theorem audioPagesSpec_body (serial : Nat) (pkts : List (List Nat)) :
    ∀ g seq i, i < pkts.length →
      pageBody ((audioPagesSpec serial pkts g seq).getD i []) = pkts.getD i [] := by
  induction pkts with
  | nil => intro g seq i hi; exact absurd hi (by simp)
  | cons pkt rest ih =>
    intro g seq i hi
    match i with
    | 0 => simp [audioPagesSpec, mkPage_body]
    | i + 1 =>
      have hi' : i < rest.length := by simpa using hi
      simp only [audioPagesSpec, List.getD_cons_succ]
      exact ih _ _ i hi'

theorem audioPagesSpec_segmentTable (serial : Nat) (pkts : List (List Nat)) :
    ∀ g seq i, i < pkts.length →
      pageSegmentTable ((audioPagesSpec serial pkts g seq).getD i []) =
        segmentTableForPacket (pkts.getD i []).length := by
  induction pkts with
  | nil => intro g seq i hi; exact absurd hi (by simp)
  | cons pkt rest ih =>
    intro g seq i hi
    match i with
    | 0 => simp [audioPagesSpec, mkPage_segmentTable]
    | i + 1 =>
      have hi' : i < rest.length := by simpa using hi
      simp only [audioPagesSpec, List.getD_cons_succ]
      exact ih _ _ i hi'

theorem audioPagesSpec_granule (serial : Nat) (pkts : List (List Nat)) :
    ∀ (g : Int) seq, 0 ≤ g → g + pkts.length * 960 < 2 ^ 64 →
      ∀ i, i < pkts.length →
      pageGranule ((audioPagesSpec serial pkts g seq).getD i []) =
        (max 0 (g + (i + 1) * 960 - preSkip)).toNat := by
  induction pkts with
  | nil => intro g seq _ _ i hi; exact absurd hi (by simp)
  | cons pkt rest ih =>
    intro g seq hg hbound i hi
    have hrest : (rest.length : Int) * 960 ≥ 0 := by positivity
    simp only [List.length_cons, Nat.cast_add, Nat.cast_one] at hbound
    match i with
    | 0 =>
      simp only [audioPagesSpec, List.getD_cons_zero]
      rw [mkPage_granule _ _ _ _ _ (by unfold preSkip; omega)]
      norm_num
    | i + 1 =>
      have hi' : i < rest.length := by simpa using hi
      simp only [audioPagesSpec, List.getD_cons_succ]
      rw [ih (g + 960) (seq + 1) (by omega) (by push_cast; omega) i hi']
      congr 2
      push_cast
      ring

theorem supported_divisible (rate : Int) (hr : rate ∈ supportedOpusRates) :
    rate / 50 * 50 = rate ∧ 48000 % rate = 0 := by
  simp only [supportedOpusRates, List.mem_cons, List.not_mem_nil, or_false] at hr
  rcases hr with rfl | rfl | rfl | rfl | rfl <;> constructor <;> decide

theorem supported_granule_step (rate : Int) (hr : rate ∈ supportedOpusRates) :
    rate / 50 * (48000 / rate) = 960 := by
  simp only [supportedOpusRates, List.mem_cons, List.not_mem_nil, or_false] at hr
  rcases hr with rfl | rfl | rfl | rfl | rfl <;> decide

theorem opusHead_lacing (rate : Nat) :
    (segmentTableForPacket (opusHead rate).length).length = 1 := by
  have h : (opusHead rate).length = 19 := by simp [opusHead]
  rw [h, segmentTable_length]

theorem opusTags_lacing : (segmentTableForPacket opusTags.length).length = 1 := by
  have h : opusTags.length = 25 := by simp [opusTags]
  rw [h, segmentTable_length]

/-- Closed form of a successful muxer run: one `OpusHead` page
(header type 2, sequence 0), one `OpusTags` page (header type 0,
sequence 1), then one audio page per packet. -/
theorem mux_pages_explicit (pkts : List (List Nat)) (rate : Int) (serial : Nat)
    (hr : rate ∈ supportedOpusRates)
    (hpk : ∀ pkt ∈ pkts, (segmentTableForPacket pkt.length).length ≤ 255)
    (hn : (pkts.length : Int) * 960 < 2 ^ 64) :
    packetsToOggOpusPages pkts rate serial =
      .ok (mkPage 0x02 0 serial 0 (opusHead rate.toNat)
        :: mkPage 0x00 0 serial 1 opusTags
        :: audioPagesSpec serial pkts 0 2) := by
  simp only [packetsToOggOpusPages]
  rw [if_neg (by simp [hr]), if_neg (by simp [(supported_divisible rate hr).1]),
    if_neg (by simp [(supported_divisible rate hr).2]), supported_granule_step rate hr]
  rw [buildOggPage_ok 0x02 0 serial 0 _ le_rfl (by rw [opusHead_lacing]; norm_num)
    (by norm_num)]
  simp only [bind, Except.bind]
  rw [buildOggPage_ok 0x00 0 serial 1 _ le_rfl (by rw [opusTags_lacing]; norm_num)
    (by norm_num)]
  rw [muxAudioPages_ok serial pkts 0 2 le_rfl (by omega) hpk]
  rfl

theorem muxAudioPages_error (step : Int) (serial : Nat) (pkts : List (List Nat)) :
    ∀ g seq, (∃ pkt ∈ pkts, 255 < (segmentTableForPacket pkt.length).length) →
      ∀ res, muxAudioPages step serial pkts g seq ≠ .ok res := by
  induction pkts with
  | nil => rintro g seq ⟨pkt, hmem, _⟩; exact absurd hmem (by simp)
  | cons pkt rest ih =>
    rintro g seq ⟨p, hmem, hbig⟩ res
    simp only [muxAudioPages, bind, Except.bind]
    cases hpage : buildOggPage (if rest = [] then 0x04 else 0x00)
        (max 0 (g + step - preSkip)) serial seq pkt with
    | error e => simp
    | ok page =>
      rcases List.mem_cons.mp hmem with rfl | hmem'
      · exact absurd hpage (buildOggPage_error _ _ _ _ _ hbig page)
      · cases hrest : muxAudioPages step serial rest (g + step) (seq + 1) with
        | error e => simp
        | ok pages => exact absurd hrest (ih (g + step) (seq + 1) ⟨p, hmem', hbig⟩ pages)

theorem mux_error_of_rate (pkts : List (List Nat)) (rate : Int) (serial : Nat)
    (h : rate ∉ supportedOpusRates) :
    packetsToOggOpusPages pkts rate serial = .error "Unsupported sample rate" := by
  simp only [packetsToOggOpusPages]
  rw [if_pos h]

theorem mux_error_of_oversize (pkts : List (List Nat)) (rate : Int) (serial : Nat)
    (hbad : ∃ pkt ∈ pkts, 255 < (segmentTableForPacket pkt.length).length) :
    ∀ res, packetsToOggOpusPages pkts rate serial ≠ .ok res := by
  intro res
  by_cases hr : rate ∈ supportedOpusRates
  · simp only [packetsToOggOpusPages]
    rw [if_neg (by simp [hr]), if_neg (by simp [(supported_divisible rate hr).1]),
      if_neg (by simp [(supported_divisible rate hr).2])]
    rw [buildOggPage_ok 0x02 0 serial 0 _ le_rfl (by rw [opusHead_lacing]; norm_num)
      (by norm_num)]
    simp only [bind, Except.bind]
    rw [buildOggPage_ok 0x00 0 serial 1 _ le_rfl (by rw [opusTags_lacing]; norm_num)
      (by norm_num)]
    rcases haud : muxAudioPages (rate / 50 * (48000 / rate)) serial pkts 0 2 with e | pages
    · simp
    · exact absurd haud (muxAudioPages_error _ _ _ _ _ hbad pages)
  · rw [mux_error_of_rate pkts rate serial hr]
    simp

theorem lacing_le_of_len_le (n : Nat) (h : n ≤ 65024) :
    (segmentTableForPacket n).length ≤ 255 := by
  rw [segmentTable_length]; omega

theorem granule_bound_of_len (n : Nat) (h : n ≤ 2 ^ 54) : (n : Int) * 960 < 2 ^ 64 := by
  have h1 : (n : Int) ≤ 2 ^ 54 := by exact_mod_cast h
  nlinarith

/-- Claim C2 (amended).  For every supported sample rate, every
**nonempty** packet sequence (each packet at most 65024 bytes, so that
its lacing fits one page, and at most `2^54` packets, so that every
granule fits `struct.pack "<Q"`): every page of the produced stream
passes Ogg CRC verification, each audio page carries exactly the one
packet assigned to it (its segment table ends in a lacing value
< 255), and the last page alone has header-type bit 0x04.  For the
empty packet sequence the two header pages are still CRC-valid but no
page at all carries the end-of-stream bit. -/
theorem claim_C2_amended (pkts : List (List Nat)) (rate : Int) (serial : Nat)
    (hr : rate ∈ supportedOpusRates)
    (hpk : ∀ pkt ∈ pkts, pkt.length ≤ 65024)
    (hn : pkts.length ≤ 2 ^ 54) :
    ∃ pages, packetsToOggOpusPages pkts rate serial = .ok pages ∧
      packetsToOggOpusBytes pkts rate serial = .ok pages.flatten ∧
      (∀ p ∈ pages, pageCrcOk p) ∧
      pages.length = pkts.length + 2 ∧
      (∀ i, i < pkts.length →
        pageBody (pages.getD (i + 2) []) = pkts.getD i [] ∧
        (pageSegmentTable (pages.getD (i + 2) [])).getLast? =
          some ((pkts.getD i []).length % 255) ∧
        (pkts.getD i []).length % 255 < 255) ∧
      (pkts ≠ [] → ∀ j, j < pages.length →
        ((pageHeaderType (pages.getD j [])).testBit 2 = true ↔ j = pages.length - 1)) ∧
      (pkts = [] → ∀ p ∈ pages, (pageHeaderType p).testBit 2 = false) := by
  have hpk' : ∀ pkt ∈ pkts, (segmentTableForPacket pkt.length).length ≤ 255 :=
    fun pkt hp => lacing_le_of_len_le _ (hpk pkt hp)
  have hmux := mux_pages_explicit pkts rate serial hr hpk' (granule_bound_of_len _ hn)
  refine ⟨_, hmux, ?_, ?_, ?_, ?_, ?_, ?_⟩
  · unfold packetsToOggOpusBytes
    rw [hmux]
    rfl
  · intro p hp
    rcases List.mem_cons.mp hp with rfl | hp
    · exact mkPage_crcOk _ _ _ _ _
    · rcases List.mem_cons.mp hp with rfl | hp
      · exact mkPage_crcOk _ _ _ _ _
      · exact audioPagesSpec_crcOk serial pkts 0 2 p hp
  · simp [audioPagesSpec_length]
  · intro i hi
    refine ⟨?_, ?_, by omega⟩
    · simpa using audioPagesSpec_body serial pkts 0 2 i hi
    · have h1 := audioPagesSpec_segmentTable serial pkts 0 2 i hi
      simp only [List.getD_cons_succ]
      rw [h1, segmentTable_eq]
      exact List.getLast?_concat _
  · intro hne j hj
    have hlen : (audioPagesSpec serial pkts 0 2).length = pkts.length :=
      audioPagesSpec_length serial pkts 0 2
    have hnz : 0 < pkts.length := List.length_pos.mpr hne
    simp only [List.length_cons, hlen] at hj ⊢
    match j with
    | 0 =>
      rw [show pageHeaderType ((mkPage 0x02 0 serial 0 (opusHead rate.toNat)
        :: mkPage 0x00 0 serial 1 opusTags
        :: audioPagesSpec serial pkts 0 2).getD 0 []) = 0x02 % 256 from mkPage_headerType ..]
      constructor
      · intro h; exact absurd h (by decide)
      · intro h; omega
    | 1 =>
      rw [show pageHeaderType ((mkPage 0x02 0 serial 0 (opusHead rate.toNat)
        :: mkPage 0x00 0 serial 1 opusTags
        :: audioPagesSpec serial pkts 0 2).getD 1 []) = 0x00 % 256 from mkPage_headerType ..]
      constructor
      · intro h; exact absurd h (by decide)
      · intro h; omega
    | j + 2 =>
      have hj' : j < pkts.length := by omega
      simp only [List.getD_cons_succ]
      rw [audioPagesSpec_headerType serial pkts 0 2 j hj']
      by_cases hlast : j = pkts.length - 1
      · rw [if_pos hlast]
        constructor
        · intro _; omega
        · intro _; decide
      · rw [if_neg hlast]
        constructor
        · intro h; exact absurd h (by decide)
        · intro h; exact absurd (by omega : j = pkts.length - 1) hlast
  · rintro rfl p hp
    simp only [audioPagesSpec] at hp
    rcases List.mem_cons.mp hp with rfl | hp
    · rw [mkPage_headerType]
      decide
    · rcases List.mem_cons.mp hp with rfl | hp
      · rw [mkPage_headerType]
        decide
      · exact absurd hp (by simp)

/-- Witness for `claim_C2_amended` at a concrete input. -/
theorem claim_C2_witness :
    (48000 : Int) ∈ supportedOpusRates ∧
    (∀ pkt ∈ ([[1], [2, 3]] : List (List Nat)), pkt.length ≤ 65024) ∧
    ([[1], [2, 3]] : List (List Nat)).length ≤ 2 ^ 54 ∧
    (∃ pages, packetsToOggOpusPages [[1], [2, 3]] 48000 0 = .ok pages ∧
      packetsToOggOpusBytes [[1], [2, 3]] 48000 0 = .ok pages.flatten ∧
      (∀ p ∈ pages, pageCrcOk p) ∧
      pages.length = ([[1], [2, 3]] : List (List Nat)).length + 2 ∧
      (∀ i, i < ([[1], [2, 3]] : List (List Nat)).length →
        pageBody (pages.getD (i + 2) []) = ([[1], [2, 3]] : List (List Nat)).getD i [] ∧
        (pageSegmentTable (pages.getD (i + 2) [])).getLast? =
          some ((([[1], [2, 3]] : List (List Nat)).getD i []).length % 255) ∧
        (([[1], [2, 3]] : List (List Nat)).getD i []).length % 255 < 255) ∧
      (([[1], [2, 3]] : List (List Nat)) ≠ [] → ∀ j, j < pages.length →
        ((pageHeaderType (pages.getD j [])).testBit 2 = true ↔ j = pages.length - 1)) ∧
      (([[1], [2, 3]] : List (List Nat)) = [] →
        ∀ p ∈ pages, (pageHeaderType p).testBit 2 = false)) :=
  ⟨by decide, by decide, by decide,
    claim_C2_amended [[1], [2, 3]] 48000 0 (by decide) (by decide) (by decide)⟩

/-- Counterexample to claim C2 as stated: for the **empty** packet
sequence the muxer emits only the `OpusHead` page (header type 0x02)
and the `OpusTags` page (header type 0x00), so no page — in particular
not the last one — has the end-of-stream bit 0x04. -/
theorem claim_C2_counterexample :
    (packetsToOggOpusPages [] 48000 0).map (List.map pageHeaderType) = .ok [0x02, 0x00] ∧
    (0x02 : Nat).testBit 2 = false ∧ (0x00 : Nat).testBit 2 = false := by
  refine ⟨rfl, by decide, by decide⟩


/-- Claim C3.  For every supported rate `R` the muxer computes
`frame_samples = R/50` and `granule_step = frame_samples * (48000/R)`
exactly (both divisions integral), the cumulative granule grows by
`granule_step` per packet, and the page carrying the `i`-th packet
(0-based) stores granule position `max 0 ((i+1)*granule_step - 312)`;
any rate for which either division is non-integral is rejected. -/
theorem claim_C3 (pkts : List (List Nat)) (rate : Int) (serial : Nat)
    (hr : rate ∈ supportedOpusRates)
    (hpk : ∀ pkt ∈ pkts, pkt.length ≤ 65024)
    (hn : pkts.length ≤ 2 ^ 54) :
    rate / 50 * 50 = rate ∧ 48000 % rate = 0 ∧
    (∃ pages, packetsToOggOpusPages pkts rate serial = .ok pages ∧
      ∀ i, i < pkts.length →
        pageGranule (pages.getD (i + 2) []) =
          (max 0 (((i : Int) + 1) * (rate / 50 * (48000 / rate)) - 312)).toNat) ∧
    (∀ rate2 : Int, (¬ (50 ∣ rate2) ∨ ¬ (rate2 ∣ 48000)) →
      ∀ (pkts2 : List (List Nat)) (serial2 : Nat) res,
        packetsToOggOpusPages pkts2 rate2 serial2 ≠ .ok res) := by
  refine ⟨(supported_divisible rate hr).1, (supported_divisible rate hr).2, ?_, ?_⟩
  · have hpk2 : ∀ pkt ∈ pkts, (segmentTableForPacket pkt.length).length ≤ 255 :=
      fun pkt hp => lacing_le_of_len_le _ (hpk pkt hp)
    have hbound := granule_bound_of_len _ hn
    refine ⟨_, mux_pages_explicit pkts rate serial hr hpk2 hbound, ?_⟩
    intro i hi
    simp only [List.getD_cons_succ]
    rw [audioPagesSpec_granule serial pkts 0 2 le_rfl (by omega) i hi,
      supported_granule_step rate hr]
    have harith : (0 : Int) + (↑i + 1) * 960 - preSkip = (↑i + 1) * 960 - 312 := by
      simp only [preSkip]
      ring
    rw [harith]
  · intro rate2 hdvd pkts2 serial2 res
    have hout : rate2 ∉ supportedOpusRates := by
      intro hmem
      have : 50 ∣ rate2 ∧ rate2 ∣ 48000 := by
        simp only [supportedOpusRates, List.mem_cons, List.not_mem_nil, or_false] at hmem
        rcases hmem with rfl | rfl | rfl | rfl | rfl <;> exact ⟨by decide, by decide⟩
      tauto
    rw [mux_error_of_rate pkts2 rate2 serial2 hout]
    simp

/-- Witness for `claim_C3` at a concrete input. -/
theorem claim_C3_witness :
    (48000 : Int) ∈ supportedOpusRates ∧
    (∀ pkt ∈ ([[7], [8]] : List (List Nat)), pkt.length ≤ 65024) ∧
    ([[7], [8]] : List (List Nat)).length ≤ 2 ^ 54 ∧
    ((48000 : Int) / 50 * 50 = 48000 ∧ (48000 : Int) % 48000 = 0 ∧
    (∃ pages, packetsToOggOpusPages [[7], [8]] 48000 0 = .ok pages ∧
      ∀ i, i < ([[7], [8]] : List (List Nat)).length →
        pageGranule (pages.getD (i + 2) []) =
          (max 0 (((i : Int) + 1) * ((48000 : Int) / 50 * (48000 / 48000)) - 312)).toNat) ∧
    (∀ rate2 : Int, (¬ (50 ∣ rate2) ∨ ¬ (rate2 ∣ 48000)) →
      ∀ (pkts2 : List (List Nat)) (serial2 : Nat) res,
        packetsToOggOpusPages pkts2 rate2 serial2 ≠ .ok res)) :=
  ⟨by decide, by decide, by decide,
    by
      have h := claim_C3 [[7], [8]] 48000 0 (by decide) (by decide) (by decide)
      simpa using h⟩

/-- Claim C8.  Under the always-satisfied-in-practice bound of at most
`2^54` packets (beyond which the 64-bit granule packing itself would
overflow), the muxer succeeds exactly when the sample rate is one of
{8000, 12000, 16000, 24000, 48000} and no packet needs more than 255
lacing entries; and every packet\'s segment table is a run of 255-valued
entries followed by one final lacing value in [0, 254]. -/
theorem claim_C8 (pkts : List (List Nat)) (rate : Int) (serial : Nat)
    (hn : pkts.length ≤ 2 ^ 54) :
    ((packetsToOggOpusPages pkts rate serial).isOk = true ↔
      rate ∈ supportedOpusRates ∧
        ∀ pkt ∈ pkts, (segmentTableForPacket pkt.length).length ≤ 255) ∧
    (∀ n : Nat, segmentTableForPacket n =
        List.replicate (n / 255) 255 ++ [n % 255] ∧ n % 255 ≤ 254) := by
  constructor
  · constructor
    · intro hok
      by_cases hr : rate ∈ supportedOpusRates
      · refine ⟨hr, ?_⟩
        by_contra hbad
        push_neg at hbad
        obtain ⟨pkt, hmem, hbig⟩ := hbad
        have := mux_error_of_oversize pkts rate serial ⟨pkt, hmem, by omega⟩
        cases hmux : packetsToOggOpusPages pkts rate serial with
        | error e => rw [hmux] at hok; simp [Except.isOk, Except.toBool] at hok
        | ok pages => exact absurd hmux (this pages)
      · rw [mux_error_of_rate pkts rate serial hr] at hok
        simp [Except.isOk, Except.toBool] at hok
    · rintro ⟨hr, hpk⟩
      rw [mux_pages_explicit pkts rate serial hr hpk (granule_bound_of_len _ hn)]
      rfl
  · intro n
    exact ⟨segmentTable_eq n, by omega⟩

/-- Witness for `claim_C8` at a concrete input. -/
theorem claim_C8_witness :
    ([[1], List.replicate 300 2] : List (List Nat)).length ≤ 2 ^ 54 ∧
    (((packetsToOggOpusPages [[1], List.replicate 300 2] 16000 5).isOk = true ↔
      (16000 : Int) ∈ supportedOpusRates ∧
        ∀ pkt ∈ ([[1], List.replicate 300 2] : List (List Nat)),
          (segmentTableForPacket pkt.length).length ≤ 255) ∧
    (∀ n : Nat, segmentTableForPacket n =
        List.replicate (n / 255) 255 ++ [n % 255] ∧ n % 255 ≤ 254)) :=
  ⟨by decide, claim_C8 [[1], List.replicate 300 2] 16000 5 (by decide)⟩



/-! ### Session-core theorems -/

theorem wsStep_stop_state (transcribe : List Nat → Int → Except String String)
    (st : SessionState) (decodeRes : Except String (List Nat)) :
    (wsStep transcribe st (.stop decodeRes)).1 = st.reset_audio := by
  simp only [wsStep, handleStop]
  split
  · rfl
  · split
    · rfl
    · split
      · rfl
      · rfl

/-- Claim C1 (amended).  For any session, the number of `fast_text`
messages emitted equals the number of `stop` messages handled in
Capturing state (`sample_rate` set) whose audio decode **and**
inference call both succeeded.  A decode failure emits only an
`audio decode failed` error; an inference failure emits an
`asr failed` error followed by an `audio decode failed` error (the
handler crashes on the unassigned `t_asr1` before sending its
placeholder), and neither emits a `fast_text`. -/
theorem claim_C1_amended (transcribe : List Nat → Int → Except String String)
    (st : SessionState) (msgs : List InMsg) :
    countFastText (wsRun transcribe st msgs).2 = successfulStops transcribe st msgs := by
  induction msgs generalizing st with
  | nil => rfl
  | cons m ms ih =>
    show countFastText ((wsStep transcribe st m).2 ++ (wsRun transcribe _ ms).2) = _
    rw [countFastText, List.countP_append, ← countFastText, ← countFastText, ih]
    show _ = (match m with
      | .stop decodeRes =>
        match st.sample_rate with
        | none => 0
        | some rate =>
          match decodeOpusPacketsToPcm st.opus_packets rate decodeRes with
          | .error _ => 0
          | .ok pcm =>
            match transcribe pcm.pcm_s16le pcm.sample_rate with
            | .error _ => 0
            | .ok _ => 1
      | _ => 0) + successfulStops transcribe (wsStep transcribe st m).1 ms
    congr 1
    cases m with
    | ping => rfl
    | badJson => rfl
    | unknown t => rfl
    | start trace_id genId sample_rate ctx use_cloud_api => rfl
    | binary data => rfl
    | stop decodeRes =>
      simp only [wsStep, handleStop]
      split
      · rfl
      · split
        · rfl
        · split
          · rfl
          · rfl

/-- Counterexample to claim C1 as stated: a `stop` accepted in
Capturing state whose decode fails (here: one buffered binary frame
whose PyAV decode raises) emits no `fast_text`, so 1 accepted stop but
0 `fast_text` messages. -/
theorem claim_C1_counterexample :
    countFastText (wsRun stubTranscribe {}
      [.start none "abc123" 48000 [] false, .binary [1],
       .stop (.error "InvalidDataError")]).2 = 0 ∧
    acceptedStops stubTranscribe {}
      [.start none "abc123" 48000 [] false, .binary [1],
       .stop (.error "InvalidDataError")] = 1 := by
  constructor
  · decide
  · decide

/-- Claim C7 (amended).  A `stop` handled while `sample_rate` is unset
produces exactly one outbound message — an error whose text is
`stop before start` — and no `fast_text`; it calls `reset_audio()`, so
the audio-buffer fields are cleared while `trace_id`, `sample_rate`,
`context` and `use_cloud_api` are unchanged (the state as a whole is
unchanged only when the buffer was already empty, since binary frames
are buffered even before `start`). -/
theorem claim_C7_amended (transcribe : List Nat → Int → Except String String)
    (st : SessionState) (decodeRes : Except String (List Nat))
    (h : st.sample_rate = none) :
    wsStep transcribe st (.stop decodeRes) =
      (st.reset_audio, [sendError st.trace_id "stop before start"]) ∧
    countFastText [sendError st.trace_id "stop before start"] = 0 ∧
    st.reset_audio.trace_id = st.trace_id ∧
    st.reset_audio.sample_rate = none ∧
    st.reset_audio.context = st.context ∧
    st.reset_audio.use_cloud_api = st.use_cloud_api ∧
    st.reset_audio.opus_packets = [] ∧
    st.reset_audio.packet_count = 0 ∧
    st.reset_audio.total_bytes = 0 := by
  refine ⟨?_, rfl, rfl, ?_, rfl, rfl, rfl, rfl, rfl⟩
  · simp only [wsStep, handleStop, h]
  · simp [SessionState.reset_audio, h]

/-- Witness for `claim_C7_amended` at a concrete input. -/
theorem claim_C7_witness :
    ({ opus_packets := [[9]], packet_count := 1, total_bytes := 1 }
        : SessionState).sample_rate = none ∧
    (wsStep stubTranscribe
        { opus_packets := [[9]], packet_count := 1, total_bytes := 1 } (.stop (.ok [])) =
      (SessionState.reset_audio
        { opus_packets := [[9]], packet_count := 1, total_bytes := 1 },
       [sendError ({ opus_packets := [[9]], packet_count := 1, total_bytes := 1 }
          : SessionState).trace_id "stop before start"]) ∧
    countFastText [sendError ({ opus_packets := [[9]], packet_count := 1, total_bytes := 1 }
        : SessionState).trace_id "stop before start"] = 0 ∧
    (SessionState.reset_audio { opus_packets := [[9]], packet_count := 1, total_bytes := 1
        }).trace_id = ({ opus_packets := [[9]], packet_count := 1, total_bytes := 1 }
        : SessionState).trace_id ∧
    (SessionState.reset_audio { opus_packets := [[9]], packet_count := 1, total_bytes := 1
        }).sample_rate = none ∧
    (SessionState.reset_audio { opus_packets := [[9]], packet_count := 1, total_bytes := 1
        }).context = ({ opus_packets := [[9]], packet_count := 1, total_bytes := 1 }
        : SessionState).context ∧
    (SessionState.reset_audio { opus_packets := [[9]], packet_count := 1, total_bytes := 1
        }).use_cloud_api = ({ opus_packets := [[9]], packet_count := 1, total_bytes := 1 }
        : SessionState).use_cloud_api ∧
    (SessionState.reset_audio { opus_packets := [[9]], packet_count := 1, total_bytes := 1
        }).opus_packets = [] ∧
    (SessionState.reset_audio { opus_packets := [[9]], packet_count := 1, total_bytes := 1
        }).packet_count = 0 ∧
    (SessionState.reset_audio { opus_packets := [[9]], packet_count := 1, total_bytes := 1
        }).total_bytes = 0) :=
  ⟨rfl, claim_C7_amended stubTranscribe
    { opus_packets := [[9]], packet_count := 1, total_bytes := 1 } (.ok []) rfl⟩

/-- Counterexample to claim C7 as stated: when a binary frame arrived
before any `start` (the receive loop buffers binary frames in every
state), the `stop before start` branch calls `reset_audio()`, so the
session state does **not** stay unchanged. -/
theorem claim_C7_counterexample :
    (wsStep stubTranscribe {} (.binary [1, 2, 3])).1.packet_count = 1 ∧
    (wsStep stubTranscribe (wsStep stubTranscribe {} (.binary [1, 2, 3])).1
      (.stop (.ok []))).1.packet_count = 0 ∧
    (wsStep stubTranscribe (wsStep stubTranscribe {} (.binary [1, 2, 3])).1
      (.stop (.ok []))).1 ≠ (wsStep stubTranscribe {} (.binary [1, 2, 3])).1 := by
  refine ⟨rfl, rfl, by decide⟩

/-- Claim C10.  Every completion of the stop handler in Capturing
state — success, decode failure or inference failure alike — ends in
`reset_audio()`: the packet buffer and its counters are cleared while
`trace_id`, `sample_rate`, `context` and `use_cloud_api` keep their
values; in particular `sample_rate` remains set afterwards. -/
theorem claim_C10 (transcribe : List Nat → Int → Except String String)
    (st : SessionState) (decodeRes : Except String (List Nat))
    (h : st.sample_rate.isSome = true) :
    (wsStep transcribe st (.stop decodeRes)).1.opus_packets = [] ∧
    (wsStep transcribe st (.stop decodeRes)).1.packet_count = 0 ∧
    (wsStep transcribe st (.stop decodeRes)).1.total_bytes = 0 ∧
    (wsStep transcribe st (.stop decodeRes)).1.trace_id = st.trace_id ∧
    (wsStep transcribe st (.stop decodeRes)).1.sample_rate = st.sample_rate ∧
    (wsStep transcribe st (.stop decodeRes)).1.context = st.context ∧
    (wsStep transcribe st (.stop decodeRes)).1.use_cloud_api = st.use_cloud_api ∧
    (wsStep transcribe st (.stop decodeRes)).1.sample_rate.isSome = true := by
  rw [wsStep_stop_state]
  exact ⟨rfl, rfl, rfl, rfl, rfl, rfl, rfl, h⟩

/-- Witness for `claim_C10` at a concrete input (an inference-failure
completion). -/
theorem claim_C10_witness :
    ({ trace_id := some "t1", sample_rate := some 48000, context := [("app", "x")],
       use_cloud_api := true, opus_packets := [[1], [2]], packet_count := 2,
       total_bytes := 2 } : SessionState).sample_rate.isSome = true ∧
    ((wsStep (fun _ _ => .error "boom")
      { trace_id := some "t1", sample_rate := some 48000, context := [("app", "x")],
        use_cloud_api := true, opus_packets := [[1], [2]], packet_count := 2,
        total_bytes := 2 } (.stop (.ok [7, 7]))).1.opus_packets = [] ∧
    (wsStep (fun _ _ => .error "boom")
      { trace_id := some "t1", sample_rate := some 48000, context := [("app", "x")],
        use_cloud_api := true, opus_packets := [[1], [2]], packet_count := 2,
        total_bytes := 2 } (.stop (.ok [7, 7]))).1.packet_count = 0 ∧
    (wsStep (fun _ _ => .error "boom")
      { trace_id := some "t1", sample_rate := some 48000, context := [("app", "x")],
        use_cloud_api := true, opus_packets := [[1], [2]], packet_count := 2,
        total_bytes := 2 } (.stop (.ok [7, 7]))).1.total_bytes = 0 ∧
    (wsStep (fun _ _ => .error "boom")
      { trace_id := some "t1", sample_rate := some 48000, context := [("app", "x")],
        use_cloud_api := true, opus_packets := [[1], [2]], packet_count := 2,
        total_bytes := 2 } (.stop (.ok [7, 7]))).1.trace_id = some "t1" ∧
    (wsStep (fun _ _ => .error "boom")
      { trace_id := some "t1", sample_rate := some 48000, context := [("app", "x")],
        use_cloud_api := true, opus_packets := [[1], [2]], packet_count := 2,
        total_bytes := 2 } (.stop (.ok [7, 7]))).1.sample_rate = some 48000 ∧
    (wsStep (fun _ _ => .error "boom")
      { trace_id := some "t1", sample_rate := some 48000, context := [("app", "x")],
        use_cloud_api := true, opus_packets := [[1], [2]], packet_count := 2,
        total_bytes := 2 } (.stop (.ok [7, 7]))).1.context = [("app", "x")] ∧
    (wsStep (fun _ _ => .error "boom")
      { trace_id := some "t1", sample_rate := some 48000, context := [("app", "x")],
        use_cloud_api := true, opus_packets := [[1], [2]], packet_count := 2,
        total_bytes := 2 } (.stop (.ok [7, 7]))).1.use_cloud_api = true ∧
    (wsStep (fun _ _ => .error "boom")
      { trace_id := some "t1", sample_rate := some 48000, context := [("app", "x")],
        use_cloud_api := true, opus_packets := [[1], [2]], packet_count := 2,
        total_bytes := 2 } (.stop (.ok [7, 7]))).1.sample_rate.isSome = true) := by
  constructor
  · rfl
  · have h := claim_C10 (fun _ _ => .error "boom")
      { trace_id := some "t1", sample_rate := some 48000, context := [("app", "x")],
        use_cloud_api := true, opus_packets := [[1], [2]], packet_count := 2,
        total_bytes := 2 } (.ok [7, 7]) rfl
    exact h



/-! ### Feature front-end lemmas -/

theorem lfrLoop_length (feats : List (List ℝ)) (m n t : Nat) :
    ∀ idx, (lfrLoop feats m n t idx).length = (t - idx + n) / (n + 1) := by
  suffices h : ∀ d idx, t - idx = d → (lfrLoop feats m n t idx).length = (d + n) / (n + 1) by
    intro idx
    rw [h (t - idx) idx rfl]
  intro d
  induction d using Nat.strong_induction_on with
  | _ d ih =>
    intro idx hidx
    rw [lfrLoop]
    split
    · rename_i hlt
      have hd1 : 1 ≤ d := by omega
      rw [List.length_cons, ih (t - (idx + (n + 1))) (by omega) _ rfl]
      rcases le_or_lt (n + 1) d with hc | hc
      · have h1 : t - (idx + (n + 1)) + n = d - (n + 1) + n := by omega
        have h2 : d + n = d - (n + 1) + n + (n + 1) := by omega
        rw [h1, h2, Nat.add_div_right _ (Nat.succ_pos n)]
      · have h1 : t - (idx + (n + 1)) + n = n := by omega
        have h2 : d + n = d - 1 + (n + 1) := by omega
        rw [h1, h2, Nat.add_div_right _ (Nat.succ_pos n),
          Nat.div_eq_of_lt (by omega), Nat.div_eq_of_lt (by omega)]
    · rename_i hge
      have h0 : d = 0 := by omega
      simp [h0, Nat.div_eq_of_lt (Nat.lt_succ_of_le (Nat.le_refl n))]

theorem sum_map_const_rows (l : List (List ℝ)) (c : Nat) :
    (l.map fun _ => c).sum = l.length * c := by
  induction l with
  | nil => simp
  | cons x xs ih =>
    simp only [List.map_cons, List.sum_cons, ih, List.length_cons]
    ring

theorem lfrChunk_length (feats : List (List ℝ)) (m idx c : Nat)
    (hc : ∀ row ∈ feats, row.length = c) (hidx : idx < feats.length) (hm : 0 < m) :
    (lfrChunk feats m idx).length = m * c := by
  unfold lfrChunk
  have hchunk_len : ((feats.drop idx).take m).length = min m (feats.length - idx) := by
    simp
  have hchunk_pos : 0 < ((feats.drop idx).take m).length := by
    rw [hchunk_len]; omega
  have hchunk_le : ((feats.drop idx).take m).length ≤ m := by
    rw [hchunk_len]; omega
  have hmem : ∀ row ∈ (feats.drop idx).take m, row.length = c := fun row hr =>
    hc row (List.mem_of_mem_drop (List.mem_of_mem_take hr))
  have hlast : (((feats.drop idx).take m).getLastD []).length = c := by
    rcases hne : (feats.drop idx).take m with _ | ⟨r, rs⟩
    · rw [hne] at hchunk_pos; simp at hchunk_pos
    · rw [← hne]
      rw [List.getLastD_eq_getLast?, List.getLast?_eq_getLast _ (by rw [hne]; simp)]
      simp only [Option.getD_some]
      exact hmem _ (List.getLast_mem _)
  have hall : ∀ row ∈ (feats.drop idx).take m
      ++ List.replicate (m - ((feats.drop idx).take m).length)
        (((feats.drop idx).take m).getLastD []), row.length = c := by
    intro row hr
    rcases List.mem_append.mp hr with hr | hr
    · exact hmem row hr
    · rw [List.eq_of_mem_replicate hr]
      exact hlast
  rw [List.length_flatten, List.map_congr_left hall, sum_map_const_rows]
  have hlen : ((feats.drop idx).take m
      ++ List.replicate (m - ((feats.drop idx).take m).length)
        (((feats.drop idx).take m).getLastD [])).length = m := by
    simp only [List.length_append, List.length_replicate]
    omega
  rw [hlen]

theorem frameWaveform_ok (w : List ℝ) (fl fs : Nat) (hfl : 0 < fl) (hfs : 0 < fs) :
    ∃ frames, frameWaveform w fl fs = .ok frames ∧
      frames.length = 1 + (max w.length fl - fl) / fs ∧
      ∀ fr ∈ frames, fr.length = fl := by
  unfold frameWaveform
  rw [if_neg (by omega)]
  have hw1 : (if w.length < fl then w ++ List.replicate (fl - w.length) 0 else w).length
      = max w.length fl := by
    split
    · simp only [List.length_append, List.length_replicate]
      omega
    · omega
  refine ⟨_, rfl, ?_, ?_⟩
  · simp [hw1]
  · intro fr hfr
    simp only [List.mem_map, List.mem_range] at hfr
    obtain ⟨i, hi, rfl⟩ := hfr
    set w1 := if w.length < fl then w ++ List.replicate (fl - w.length) 0 else w with hw1def
    set nf := 1 + (w1.length - fl) / fs with hnf
    set total := (nf - 1) * fs + fl with htotal
    set w2 := if w1.length < total then w1 ++ List.replicate (total - w1.length) 0 else w1
      with hw2def
    have hw2len : total ≤ w2.length := by
      rw [hw2def]
      split
      · simp only [List.length_append, List.length_replicate]
        omega
      · omega
    have hi2 : i ≤ nf - 1 := by omega
    have hbound : i * fs + fl ≤ total := by
      rw [htotal]
      have := Nat.mul_le_mul_right fs hi2
      omega
    simp only [List.length_take, List.length_drop]
    omega

theorem melFilterbank_length (sr nf nm : Nat) (lo hi : ℝ) :
    (melFilterbank sr nf nm lo hi).length = nm := by
  simp [melFilterbank]

theorem logMelFbank_ok (w : List ℝ) (sr nm : Nat)
    (hfl : 0 < frameParam sr 25) (hfs : 0 < frameParam sr 10) :
    ∃ rows, logMelFbank w sr nm = .ok rows ∧
      rows.length = 1 + (max w.length (frameParam sr 25) - frameParam sr 25) /
        frameParam sr 10 ∧
      ∀ row ∈ rows, row.length = nm := by
  unfold logMelFbank
  rw [if_neg (by omega)]
  obtain ⟨frames, hframes, hlen, _⟩ := frameWaveform_ok w (frameParam sr 25)
    (frameParam sr 10) hfl hfs
  rw [hframes]
  refine ⟨_, rfl, ?_, ?_⟩
  · simp [hlen]
  · intro row hrow
    simp only [List.mem_map] at hrow
    obtain ⟨a, ha, rfl⟩ := hrow
    simp [melFilterbank_length]

theorem applyLfr_ok (feats : List (List ℝ)) (m n c : Nat) (hm : 0 < m) (hn : 0 < n)
    (hc : ∀ row ∈ feats, row.length = c) :
    ∃ rows, applyLfr feats m n = .ok rows ∧
      rows.length = (feats.length + n - 1) / n ∧
      ∀ row ∈ rows, row.length = c * m := by
  obtain ⟨m2, rfl⟩ : ∃ m2, m = m2 + 1 := ⟨m - 1, by omega⟩
  obtain ⟨n2, rfl⟩ : ∃ n2, n = n2 + 1 := ⟨n - 1, by omega⟩
  have happ : applyLfr feats (m2 + 1) (n2 + 1) =
      if feats.length = 0 then Except.ok []
      else Except.ok (lfrLoop feats (m2 + 1) n2 feats.length 0) := rfl
  rw [happ]
  by_cases ht : feats.length = 0
  · rw [if_pos ht]
    refine ⟨[], rfl, ?_, by simp⟩
    rw [ht]
    exact (Nat.div_eq_of_lt (by omega)).symm
  · rw [if_neg ht]
    refine ⟨_, rfl, ?_, ?_⟩
    · rw [lfrLoop_length]
      have hx : feats.length - 0 + n2 = feats.length + (n2 + 1) - 1 := by omega
      rw [hx]
    · suffices h : ∀ d idx, feats.length - idx = d →
          ∀ row ∈ lfrLoop feats (m2 + 1) n2 feats.length idx, row.length = c * (m2 + 1) by
        exact h feats.length 0 rfl
      intro d
      induction d using Nat.strong_induction_on with
      | _ d ih =>
        intro idx hidx
        rw [lfrLoop]
        split
        · rename_i hlt
          intro row hrow
          rcases List.mem_cons.mp hrow with rfl | hrow
          · rw [lfrChunk_length feats (m2 + 1) idx c hc hlt (by omega)]
            ring
          · exact ih (feats.length - (idx + (n2 + 1))) (by omega) _ rfl row hrow
        · intro row hrow
          exact absurd hrow (by simp)

theorem applyCmvn_ok (feats : List (List ℝ)) (nm inv : List ℝ)
    (hrows : ∀ row ∈ feats, row.length = nm.length) (hd : nm.length = inv.length) :
    ∃ out, applyCmvn feats nm inv = .ok out ∧ out.length = feats.length ∧
      ∀ row ∈ out, row.length = nm.length := by
  unfold applyCmvn
  rw [if_neg (by
    simp only [List.all_eq_true, decide_eq_true_eq]
    push_neg
    exact ⟨hrows, hd⟩)]
  refine ⟨_, rfl, by simp, ?_⟩
  intro row hrow
  simp only [List.mem_map] at hrow
  obtain ⟨r, hr, rfl⟩ := hrow
  simp [hrows r hr, hd]

/-- Empty PCM: the front-end pads an empty waveform to one full frame
(`_frame_waveform` zero-pads inputs shorter than `frame_length`), so
with the SenseVoice parameters (16 kHz, 80 mels, LFR 7/6) it produces
one feature row of width 560 and `x_len = 1` — not a `0 × 560`
matrix. -/
theorem sensevoice_empty_pcm :
    ∃ f1, sensevoiceCtcFeatures [] 16000 80 7 6 (List.replicate 560 0)
        (List.replicate 560 0) = .ok (f1, 1) ∧
      f1.length = 1 ∧ ∀ row ∈ f1, row.length = 560 := by
  have hstart : sensevoiceCtcFeatures [] 16000 80 7 6 (List.replicate 560 0)
      (List.replicate 560 0)
      = match logMelFbank [] 16000 80 with
        | .error e => .error e
        | .ok fbanks =>
          match applyLfr fbanks 7 6 with
          | .error e => .error e
          | .ok lfr =>
            match applyCmvn lfr (List.replicate 560 0) (List.replicate 560 0) with
            | .error e => .error e
            | .ok feats => .ok (feats, feats.length) := rfl
  obtain ⟨rows, hrows, hlen, hwid⟩ := logMelFbank_ok ([] : List ℝ) 16000 80 (by decide)
    (by decide)
  have hlen1 : rows.length = 1 := by
    rw [hlen]
    decide
  obtain ⟨lfr, hlfr, hlfrlen, hlfrwid⟩ := applyLfr_ok rows 7 6 80 (by omega) (by omega) hwid
  have hlfrlen1 : lfr.length = 1 := by
    rw [hlfrlen, hlen1]
  have hwid560 : ∀ row ∈ lfr, row.length = (List.replicate 560 (0 : ℝ)).length := by
    intro row hr
    rw [hlfrwid row hr]
    simp
  obtain ⟨out, hout, houtlen, houtwid⟩ := applyCmvn_ok lfr (List.replicate 560 0)
    (List.replicate 560 0) hwid560 rfl
  rw [hstart]
  simp only [hrows, hlfr, hout]
  refine ⟨out, ?_, ?_, ?_⟩
  · rw [houtlen, hlfrlen1]
  · rw [houtlen, hlfrlen1]
  · intro row hr
    rw [houtwid row hr]
    simp


/-- Claim C4 (amended).  LFR stacking emits `ceil(T / lfr_n)` rows
(written `(T + lfr_n - 1) / lfr_n`), each of width `n_mels * lfr_m`,
with the final partial window padded by repeating the last mel row
(`lfrChunk`); a `0 × feature_dim` output occurs exactly for `T = 0`
mel frames.  An **empty PCM byte string**, however, is zero-padded by
the framer to one full frame, so it yields `T = 1` and a
`1 × feature_dim` output with `T' = 1` — not `T' = 0`. -/
theorem claim_C4_amended :
    (∀ (feats : List (List ℝ)) (m n c : Nat), 0 < m → 0 < n →
      (∀ row ∈ feats, row.length = c) →
      ∃ rows, applyLfr feats m n = .ok rows ∧
        rows.length = (feats.length + n - 1) / n ∧
        ∀ row ∈ rows, row.length = c * m) ∧
    (∀ m n : Nat, 0 < m → 0 < n → applyLfr [] m n = .ok []) ∧
    (∃ f1, sensevoiceCtcFeatures [] 16000 80 7 6 (List.replicate 560 0)
        (List.replicate 560 0) = .ok (f1, 1) ∧
      f1.length = 1 ∧ ∀ row ∈ f1, row.length = 560) := by
  refine ⟨?_, ?_, sensevoice_empty_pcm⟩
  · intro feats m n c hm hn hc
    exact applyLfr_ok feats m n c hm hn hc
  · intro m n hm hn
    obtain ⟨rows, hrows, hlen, _⟩ := applyLfr_ok [] m n 0 hm hn (by simp)
    have : rows = [] := by
      have h0 : rows.length = 0 := by
        rw [hlen]
        simp only [List.length_nil]
        exact Nat.div_eq_of_lt (by omega)
      exact List.length_eq_zero.mp h0
    rw [hrows, this]

/-- Witness for `claim_C4_amended` at a concrete input. -/
theorem claim_C4_witness :
    (0 < 7 ∧ 0 < 6 ∧ ∀ row ∈ ([[0, 0], [1, 1], [2, 2]] : List (List ℝ)), row.length = 2) ∧
    (∃ rows, applyLfr [[0, 0], [1, 1], [2, 2]] 7 6 = .ok rows ∧
      rows.length = (([[0, 0], [1, 1], [2, 2]] : List (List ℝ)).length + 6 - 1) / 6 ∧
      ∀ row ∈ rows, row.length = 2 * 7) ∧
    applyLfr ([] : List (List ℝ)) 7 6 = .ok [] := by
  have hrows : ∀ row ∈ ([[0, 0], [1, 1], [2, 2]] : List (List ℝ)), row.length = 2 := by
    intro row hr
    simp only [List.mem_cons, List.not_mem_nil, or_false] at hr
    rcases hr with rfl | rfl | rfl <;> rfl
  refine ⟨⟨by norm_num, by norm_num, hrows⟩, ?_, ?_⟩
  · exact claim_C4_amended.1 [[0, 0], [1, 1], [2, 2]] 7 6 2 (by norm_num) (by norm_num) hrows
  · exact claim_C4_amended.2.1 7 6 (by norm_num) (by norm_num)

/-- Counterexample to claim C4 as stated: on the empty PCM byte string
the extractor returns `T' = 1` (one zero-padded frame), not a
`0 × feature_dim` matrix with `T' = 0`. -/
theorem claim_C4_counterexample :
    (sensevoiceCtcFeatures [] 16000 80 7 6 (List.replicate 560 0)
      (List.replicate 560 0)).map Prod.snd = .ok 1 ∧ (1 : Nat) ≠ 0 := by
  obtain ⟨f1, hf1, _, _⟩ := sensevoice_empty_pcm
  exact ⟨by rw [hf1]; rfl, by omega⟩

/-- Claim C6 (amended).  An empty packet list makes the decoder return
an empty PCM buffer (no error), and a `stop` after `start` with zero
buffered frames emits exactly one `fast_text` with `is_final = true`
whose content is the engine\'s transcription of empty PCM: the stub
engine yields `"[pcm_bytes=0 sr=16000]"`, and the CTC engine computes
`x_len = 1` on empty PCM, so its `x_len == 0` early-return does not
fire and inference **is** invoked. -/
theorem claim_C6_amended :
    (∀ (rate : Int) (decodeRes : Except String (List Nat)),
      decodeOpusPacketsToPcm [] rate decodeRes = .ok { pcm_s16le := [] }) ∧
    (wsRun stubTranscribe {} [.start none "t1" 48000 [] false, .stop (.ok [])]).2 =
      [.fastText (some "t1") "[pcm_bytes=0 sr=16000]" true] ∧
    countFastText (wsRun stubTranscribe {}
      [.start none "t1" 48000 [] false, .stop (.ok [])]).2 = 1 ∧
    ctcInferenceCall [] 16000 80 7 6 (List.replicate 560 0) (List.replicate 560 0) =
      .ok (some 1) := by
  refine ⟨fun rate decodeRes => rfl, by decide, by decide, ?_⟩
  obtain ⟨f1, hf1, _, _⟩ := sensevoice_empty_pcm
  unfold ctcInferenceCall
  rw [hf1]
  rfl

/-- Counterexample to claim C6 as stated: after `start`/`stop` with no
audio, the emitted `fast_text` content is the engine\'s transcription of
empty PCM — `"[pcm_bytes=0 sr=16000]"` for the stub engine, not `""` —
and the CTC engine reaches `session.run` (its feature length on empty
PCM is 1, not 0, because the framer zero-pads to one frame). -/
theorem claim_C6_counterexample :
    (wsRun stubTranscribe {} [.start none "t1" 48000 [] false, .stop (.ok [])]).2 =
      [.fastText (some "t1") "[pcm_bytes=0 sr=16000]" true] ∧
    ("[pcm_bytes=0 sr=16000]" : String) ≠ "" ∧
    ctcInferenceCall [] 16000 80 7 6 (List.replicate 560 0) (List.replicate 560 0) ≠
      .ok none := by
  refine ⟨by decide, by decide, ?_⟩
  obtain ⟨f1, hf1, _, _⟩ := sensevoice_empty_pcm
  unfold ctcInferenceCall
  rw [hf1]
  simp [Except.map]


/-! ### CTC decoding lemmas -/

theorem decodeStep_prev (tl : List PyStr) (s : DecodeState) (tid : Int) :
    (decodeStep tl s tid).prev = some tid := by
  unfold decodeStep
  split_ifs with h1 h2 h3
  · rw [h1]
  · rw [h2]
  · rfl
  · dsimp only
    split <;> rfl

theorem decodeStep_dup (tl : List PyStr) (s : DecodeState) (tid : Int)
    (h : tid ≠ 0) (hp : s.prev = some tid) : decodeStep tl s tid = s := by
  unfold decodeStep
  rw [if_neg h, if_pos hp]

theorem decodeStep_blank (tl : List PyStr) (s : DecodeState) :
    decodeStep tl s 0 = ⟨some 0, s.out_tokens⟩ := by
  unfold decodeStep
  rw [if_pos rfl]

theorem decodeStep_out_irrel (tl : List PyStr) (o : List PyStr) (p q : Option Int)
    (tid : Int) (h : tid ≠ 0) (hp : p ≠ some tid) (hq : q ≠ some tid) :
    decodeStep tl ⟨p, o⟩ tid = decodeStep tl ⟨q, o⟩ tid := by
  unfold decodeStep
  rw [if_neg h, if_neg h]
  simp only [if_neg hp, if_neg hq]

theorem foldl_decode_prev (tl : List PyStr) (xs : List Int) (a : Int)
    (hlast : xs.getLast? = some a) :
    ∀ s, (xs.foldl (decodeStep tl) s).prev = some a := by
  induction xs using List.reverseRecOn with
  | nil => simp at hlast
  | append_singleton ys y ih =>
    intro s
    rw [List.getLast?_concat] at hlast
    have hy : y = a := by injection hlast
    subst hy
    rw [List.foldl_append, List.foldl_cons, List.foldl_nil, decodeStep_prev]

theorem blank_skip_out (tl : List PyStr) (ys : List Int) (s : DecodeState)
    (h : ∀ b : Int, b ≠ 0 → ys.head? = some b → s.prev ≠ some b) :
    (ys.foldl (decodeStep tl) ⟨some 0, s.out_tokens⟩).out_tokens =
      (ys.foldl (decodeStep tl) s).out_tokens := by
  cases ys with
  | nil => rfl
  | cons b ys2 =>
    rw [List.foldl_cons, List.foldl_cons]
    by_cases hb : b = 0
    · subst hb
      rw [decodeStep_blank, decodeStep_blank]
    · have hprev : s.prev ≠ some b := h b hb rfl
      have hzero : (some (0 : Int)) ≠ some b := by
        intro hc
        apply hb
        injection hc with hc2
        omega
      obtain ⟨p, o⟩ := s
      rw [decodeStep_out_irrel tl o (some 0) p b hb hzero hprev]

/-- Claim C5 (amended).  CTC decoding is invariant under duplicating
any existing non-blank token, and under inserting a blank (id 0) at
any position **not** between two equal adjacent non-blank ids; a blank
inserted between two equal non-blank ids separates a collapsed repeat,
which changes the decoded text. -/
theorem claim_C5_amended (tl : List PyStr) :
    (∀ (xs ys : List Int) (a : Int), a ≠ 0 →
      decodeTokenIds (xs ++ a :: a :: ys) tl = decodeTokenIds (xs ++ a :: ys) tl) ∧
    (∀ (xs ys : List Int),
      (∀ a : Int, a ≠ 0 → ¬(xs.getLast? = some a ∧ ys.head? = some a)) →
      decodeTokenIds (xs ++ 0 :: ys) tl = decodeTokenIds (xs ++ ys) tl) := by
  constructor
  · intro xs ys a ha
    unfold decodeTokenIds
    rw [List.foldl_append, List.foldl_append, List.foldl_cons, List.foldl_cons,
      List.foldl_cons]
    rw [decodeStep_dup tl _ a ha (decodeStep_prev tl _ a)]
  · intro xs ys h
    unfold decodeTokenIds
    rw [List.foldl_append, List.foldl_append, List.foldl_cons, decodeStep_blank]
    have hout : (ys.foldl (decodeStep tl)
        ⟨some 0, (xs.foldl (decodeStep tl) {}).out_tokens⟩).out_tokens =
        (ys.foldl (decodeStep tl) (xs.foldl (decodeStep tl) {})).out_tokens := by
      apply blank_skip_out
      intro b hb hhead hprev
      rcases hx : xs.getLast? with _ | a
      · have hxs : xs = [] := List.getLast?_eq_none_iff.mp hx
        subst hxs
        simp only [List.foldl_nil] at hprev
        exact absurd hprev (by simp [show ({} : DecodeState).prev = none from rfl])
      · have hp2 := foldl_decode_prev tl xs a hx ({} : DecodeState)
        rw [hp2] at hprev
        have hab : a = b := by injection hprev
        subst hab
        exact h a hb ⟨hx, hhead⟩
    simp only [hout]

/-- Witness for `claim_C5_amended` at concrete inputs. -/
theorem claim_C5_witness :
    ((1 : Int) ≠ 0 ∧
      decodeTokenIds [2, 1, 1] ["<blank>".data, "x".data, "y".data] =
        decodeTokenIds [2, 1] ["<blank>".data, "x".data, "y".data]) ∧
    ((∀ a : Int, a ≠ 0 →
        ¬(([2] : List Int).getLast? = some a ∧ ([1] : List Int).head? = some a)) ∧
      decodeTokenIds [2, 0, 1] ["<blank>".data, "x".data, "y".data] =
        decodeTokenIds [2, 1] ["<blank>".data, "x".data, "y".data]) := by
  have hside : ∀ a : Int, a ≠ 0 →
      ¬(([2] : List Int).getLast? = some a ∧ ([1] : List Int).head? = some a) := by
    intro a ha hc
    have h1 : (some (2 : Int)) = some a := hc.1
    have h2 : (some (1 : Int)) = some a := hc.2
    injection h1 with e1
    injection h2 with e2
    omega
  constructor
  · exact ⟨by decide,
      (claim_C5_amended ["<blank>".data, "x".data, "y".data]).1 [2] [] 1 (by decide)⟩
  · exact ⟨hside, (claim_C5_amended ["<blank>".data, "x".data, "y".data]).2 [2] [1] hside⟩

/-- Counterexample to claim C5 as stated: inserting a blank between
the two equal non-blank ids of `[1, 1]` separates a collapsed repeat,
so the decoded text changes from `"a"` to `"aa"`. -/
theorem claim_C5_counterexample :
    decodeTokenIds [1, 1] ["<blank>".data, "a".data] = "a".data ∧
    decodeTokenIds [1, 0, 1] ["<blank>".data, "a".data] = "aa".data ∧
    decodeTokenIds [1, 0, 1] ["<blank>".data, "a".data] ≠
      decodeTokenIds [1, 1] ["<blank>".data, "a".data] := by
  refine ⟨by decide, by decide, by decide⟩


/-! ### Vocabulary-file parsing lemmas -/

theorem digitChar_isDigit : ∀ d < 10, (Char.ofNat (48 + d)).isDigit = true := by decide

theorem digitChar_toNat : ∀ d < 10, (Char.ofNat (48 + d)).toNat - 48 = d := by decide

theorem digitChar_range :
    ∀ d < 10, 48 ≤ (Char.ofNat (48 + d)).toNat ∧ (Char.ofNat (48 + d)).toNat ≤ 57 := by
  decide

theorem range_not_ws (c : Char) (h : 48 ≤ c.toNat ∧ c.toNat ≤ 57) : isPyWs c = false := by
  simp only [isPyWs, pyWsCodes, List.mem_cons, List.not_mem_nil, or_false,
    decide_eq_false_iff_not]
  omega

theorem range_not_lb (c : Char) (h : 48 ≤ c.toNat ∧ c.toNat ≤ 57) : isLineBreak c = false := by
  simp only [isLineBreak, lineBreakCodes, List.mem_cons, List.not_mem_nil, or_false,
    decide_eq_false_iff_not]
  omega

theorem digitChar_not_dash : ∀ c : Char, c.isDigit = true → (c ≠ '-' ∧ c ≠ '+' ∧ c ≠ '\n') := by
  intro c h
  refine ⟨?_, ?_, ?_⟩ <;> (intro hc; subst hc; exact absurd h (by decide))

theorem natReprAux_digits : ∀ fuel n, ∀ c ∈ natReprAux fuel n, c.isDigit = true := by
  intro fuel
  induction fuel with
  | zero => intro n c hc; exact absurd hc (by simp [natReprAux])
  | succ fuel ih =>
    intro n c hc
    rw [natReprAux] at hc
    split at hc
    · rename_i hn
      simp only [List.mem_singleton] at hc
      subst hc
      exact digitChar_isDigit n hn
    · rcases List.mem_append.mp hc with hc | hc
      · exact ih _ c hc
      · simp only [List.mem_singleton] at hc
        subst hc
        exact digitChar_isDigit _ (Nat.mod_lt _ (by norm_num))

theorem natReprAux_ne_nil (fuel n : Nat) : natReprAux (fuel + 1) n ≠ [] := by
  rw [natReprAux]
  split
  · simp
  · simp

theorem natRepr_ne_nil (n : Nat) : natRepr n ≠ [] := natReprAux_ne_nil n n

theorem natRepr_digits (n : Nat) : ∀ c ∈ natRepr n, c.isDigit = true :=
  natReprAux_digits (n + 1) n

theorem natReprAux_range :
    ∀ fuel n, ∀ c ∈ natReprAux fuel n, 48 ≤ c.toNat ∧ c.toNat ≤ 57 := by
  intro fuel
  induction fuel with
  | zero => intro n c hc; exact absurd hc (by simp [natReprAux])
  | succ fuel ih =>
    intro n c hc
    rw [natReprAux] at hc
    split at hc
    · rename_i hn
      simp only [List.mem_singleton] at hc
      subst hc
      exact digitChar_range n hn
    · rcases List.mem_append.mp hc with hc | hc
      · exact ih _ c hc
      · simp only [List.mem_singleton] at hc
        subst hc
        exact digitChar_range _ (Nat.mod_lt _ (by norm_num))

theorem natRepr_range (n : Nat) : ∀ c ∈ natRepr n, 48 ≤ c.toNat ∧ c.toNat ≤ 57 :=
  natReprAux_range (n + 1) n

theorem digitsValAux_append (acc : Nat) (xs ys : List Char) :
    digitsValAux acc (xs ++ ys) =
      match digitsValAux acc xs with
      | some a => digitsValAux a ys
      | none => none := by
  induction xs generalizing acc with
  | nil => rfl
  | cons c rest ih =>
    rw [List.cons_append, digitsValAux, digitsValAux]
    split
    · exact ih _
    · rfl

theorem digitsVal_digit (a d : Nat) (hd : d < 10) :
    digitsValAux a [Char.ofNat (48 + d)] = some (a * 10 + d) := by
  rw [digitsValAux, if_pos (digitChar_isDigit d hd), digitChar_toNat d hd]
  rfl

theorem digitsVal_natReprAux : ∀ fuel, ∀ n < 10 ^ fuel,
    digitsValAux 0 (natReprAux fuel n) = some n := by
  intro fuel
  induction fuel with
  | zero =>
    intro n hn
    have h0 : n = 0 := by omega
    subst h0
    rfl
  | succ fuel ih =>
    intro n hn
    rw [natReprAux]
    split
    · rename_i h10
      rw [digitsVal_digit 0 n h10]
      norm_num
    · rename_i h10
      rw [digitsValAux_append, ih (n / 10) (by
        have h1 : 10 ^ (fuel + 1) = 10 ^ fuel * 10 := by ring
        rw [h1] at hn
        omega)]
      show digitsValAux (n / 10) [Char.ofNat (48 + n % 10)] = some n
      rw [digitsVal_digit (n / 10) (n % 10) (Nat.mod_lt _ (by norm_num))]
      congr 1
      omega

theorem digitsVal_natRepr (n : Nat) : digitsValAux 0 (natRepr n) = some n := by
  apply digitsVal_natReprAux
  calc n < 10 ^ n := Nat.lt_pow_self (by norm_num) n
  _ ≤ 10 ^ (n + 1) := Nat.pow_le_pow_right (by norm_num) (by omega)

theorem dropWhile_eq_self_of_head (p : Char → Bool) (l : List Char)
    (h : ∀ c, l.head? = some c → p c = false) : l.dropWhile p = l := by
  cases l with
  | nil => rfl
  | cons c rest =>
    rw [List.dropWhile_cons, if_neg]
    rw [h c rfl]
    simp

theorem pyStrip_eq_self (l : PyStr)
    (h1 : ∀ c, l.head? = some c → isPyWs c = false)
    (h2 : ∀ c, l.getLast? = some c → isPyWs c = false) : pyStrip l = l := by
  unfold pyStrip
  rw [dropWhile_eq_self_of_head _ _ h1]
  rw [dropWhile_eq_self_of_head _ _ (by
    intro c hc
    rw [List.head?_reverse] at hc
    exact h2 c hc)]
  exact List.reverse_reverse l

theorem pyStrip_natRepr (n : Nat) : pyStrip (natRepr n) = natRepr n := by
  apply pyStrip_eq_self
  · intro c hc
    exact range_not_ws c (natRepr_range n c (List.mem_of_mem_head? hc))
  · intro c hc
    rw [← List.head?_reverse] at hc
    exact range_not_ws c (natRepr_range n c
      (List.mem_reverse.mp (List.mem_of_mem_head? hc)))

theorem pyInt_natRepr (n : Nat) : pyInt (natRepr n) = some (n : Int) := by
  unfold pyInt
  rw [pyStrip_natRepr]
  cases hn : natRepr n with
  | nil => exact absurd hn (natRepr_ne_nil n)
  | cons c rest =>
    have hc : c.isDigit = true := natRepr_digits n c (by rw [hn]; simp)
    obtain ⟨hdash, hplus, _⟩ := digitChar_not_dash c hc
    rw [pyIntCore, if_neg hdash, if_neg hplus, ← hn, digitsVal_natRepr]
    rfl


theorem pySplitlinesAux_no_lb (l : PyStr) (h : ∀ c ∈ l, isLineBreak c = false) :
    ∀ cur s, pySplitlinesAux false cur (l ++ s) = pySplitlinesAux false (l.reverse ++ cur) s := by
  induction l with
  | nil => intro cur s; simp
  | cons c rest ih =>
    intro cur s
    have hc := h c (by simp)
    have hcr : ¬(c = '\r') := by
      intro he
      rw [he] at hc
      exact absurd hc (by decide)
    rw [List.cons_append, pySplitlinesAux, if_neg (by simp), if_neg hcr,
      if_neg (by simp [hc])]
    rw [ih (fun x hx => h x (by simp [hx])) (c :: cur) s]
    congr 1
    simp

theorem pySplitlines_join (lines : List PyStr) (hne : lines ≠ [])
    (hnl : ∀ l ∈ lines, ∀ c ∈ l, isLineBreak c = false)
    (hnonempty : ∀ l ∈ lines, l ≠ []) :
    pySplitlines (pyJoin "\n".data lines) = lines := by
  induction lines with
  | nil => exact absurd rfl hne
  | cons l rest ih =>
    cases rest with
    | nil =>
      show pySplitlinesAux false [] (pyJoin "\n".data [l]) = [l]
      rw [show pyJoin "\n".data [l] = l from rfl, show l = l ++ [] by simp,
        pySplitlinesAux_no_lb l (hnl l (by simp)) [] []]
      rw [pySplitlinesAux]
      rw [if_neg (by
        simp only [List.append_nil, List.isEmpty_eq_true, List.reverse_eq_nil_iff]
        simpa using hnonempty l (by simp))]
      simp
    | cons l2 rest2 =>
      show pySplitlinesAux false [] (pyJoin "\n".data (l :: l2 :: rest2)) = l :: l2 :: rest2
      rw [show pyJoin "\n".data (l :: l2 :: rest2)
          = l ++ ('\n' :: pyJoin "\n".data (l2 :: rest2)) by
        rw [show pyJoin "\n".data (l :: l2 :: rest2)
            = l ++ "\n".data ++ pyJoin "\n".data (l2 :: rest2) from rfl]
        rw [show ("\n".data : List Char) = ['\n'] from rfl]
        simp]
      rw [pySplitlinesAux_no_lb l (hnl l (by simp)) [] _]
      rw [pySplitlinesAux, if_neg (by simp), if_neg (by decide), if_pos (by decide)]
      rw [show pySplitlinesAux false [] (pyJoin "\n".data (l2 :: rest2))
          = pySplitlines (pyJoin "\n".data (l2 :: rest2)) from rfl]
      rw [ih (by simp) (fun x hx => hnl x (by simp [hx])) (fun x hx => hnonempty x (by simp [hx]))]
      simp

theorem takeWhile_append_stop (p : Char → Bool) (A : List Char) (b : Char) (B : List Char)
    (hA : ∀ c ∈ A, p c = true) (hb : p b = false) :
    (A ++ b :: B).takeWhile p = A ∧ (A ++ b :: B).dropWhile p = b :: B := by
  induction A with
  | nil =>
    constructor
    · rw [List.nil_append, List.takeWhile_cons, if_neg (by rw [hb]; simp)]
    · rw [List.nil_append, List.dropWhile_cons, if_neg (by rw [hb]; simp)]
  | cons a A2 ih =>
    obtain ⟨ih1, ih2⟩ := ih fun c hc => hA c (by simp [hc])
    constructor
    · rw [List.cons_append, List.takeWhile_cons, if_pos (by rw [hA a (by simp)])]
      rw [ih1]
    · rw [List.cons_append, List.dropWhile_cons, if_pos (by rw [hA a (by simp)])]
      exact ih2

theorem pyRsplit1_line (t : PyStr) (d : PyStr)
    (ht_ne : t ≠ [])
    (ht_last : ∀ c, t.getLast? = some c → isPyWs c = false)
    (hd_ne : d ≠ []) (hd_all : ∀ c ∈ d, isPyWs c = false) :
    pyRsplit1 (t ++ ' ' :: d) = [t, d] := by
  have hrev : (t ++ ' ' :: d).reverse = d.reverse ++ ' ' :: t.reverse := by
    simp
  have hdrev_all : ∀ c ∈ d.reverse, isPyWs c = false := fun c hc =>
    hd_all c (List.mem_reverse.mp hc)
  have h1 : ((t ++ ' ' :: d).reverse).dropWhile isPyWs = d.reverse ++ ' ' :: t.reverse := by
    rw [hrev]
    apply dropWhile_eq_self_of_head
    intro c hc
    cases hd2 : d.reverse with
    | nil => exact absurd (by simpa using hd2) hd_ne
    | cons x xs =>
      rw [hd2] at hc
      simp only [List.cons_append, List.head?_cons] at hc
      have hx : x = c := by injection hc
      subst hx
      exact hdrev_all x (by rw [hd2]; simp)
  have hnot_ws_d : ∀ c ∈ d.reverse, (fun c => !isPyWs c) c = true := by
    intro c hc
    show (!isPyWs c) = true
    rw [hdrev_all c hc]
    rfl
  have hspace : (fun c => !isPyWs c) ' ' = false := by
    show (!isPyWs ' ') = false
    decide
  obtain ⟨htake, hdrop⟩ := takeWhile_append_stop (fun c => !isPyWs c)
    d.reverse ' ' t.reverse hnot_ws_d hspace
  have ht_self : t.reverse.dropWhile isPyWs = t.reverse := by
    apply dropWhile_eq_self_of_head
    intro c hc
    rw [List.head?_reverse] at hc
    exact ht_last c hc
  have h4 : ((d.reverse ++ ' ' :: t.reverse).dropWhile
      (fun c => !isPyWs c)).dropWhile isPyWs = t.reverse := by
    rw [hdrop, List.dropWhile_cons, if_pos (by decide)]
    exact ht_self
  unfold pyRsplit1
  simp only [h1, htake, h4]
  rw [if_neg (by simp), if_neg (by simpa using ht_ne)]
  simp


/-! ### Vocabulary round-trip lemmas -/

theorem mem_of_getLast?_eq {α : Type} (l : List α) (a : α) (h : l.getLast? = some a) :
    a ∈ l := by
  rw [← List.head?_reverse] at h
  exact List.mem_reverse.mp (List.mem_of_mem_head? h)

theorem natRepr_not_ws (n : Nat) : ∀ c ∈ natRepr n, isPyWs c = false :=
  fun c hc => range_not_ws c (natRepr_range n c hc)

theorem goodToken_spec (t : PyStr) (h : goodToken t = true) :
    t ≠ [] ∧ (∀ c, t.head? = some c → isPyWs c = false) ∧
      (∀ c, t.getLast? = some c → isPyWs c = false) ∧ (∀ c ∈ t, isLineBreak c = false) := by
  simp only [goodToken, Bool.and_eq_true, Bool.not_eq_true'] at h
  obtain ⟨⟨⟨hne, hnl⟩, hhd⟩, hlast⟩ := h
  refine ⟨?_, ?_, ?_, ?_⟩
  · intro hc
    subst hc
    simp at hne
  · intro c hc
    cases t with
    | nil => simp at hc
    | cons a rest =>
      simp only [List.head?_cons] at hc
      obtain rfl : a = c := by injection hc
      simpa using hhd
  · intro c hc
    have hd : t.getLastD 'x' = c := by
      rw [List.getLastD_eq_getLast?, hc]
      rfl
    rw [← hd]
    exact hlast
  · intro c hc
    have := List.all_eq_true.mp hnl c hc
    simpa using this

theorem snd_mem_of_mem_enumFrom {α : Type} :
    ∀ (l : List α) (k : Nat) (p : Nat × α), p ∈ l.enumFrom k → p.2 ∈ l := by
  intro l
  induction l with
  | nil =>
    intro k p hp
    simp [List.enumFrom] at hp
  | cons a r ih =>
    intro k p hp
    rw [show (a :: r).enumFrom k = (k, a) :: r.enumFrom (k + 1) from rfl] at hp
    rcases List.mem_cons.mp hp with rfl | hp
    · simp
    · exact List.mem_cons_of_mem _ (ih (k + 1) p hp)

theorem parsePairs_step (line tok idx : PyStr) (rest : List PyStr)
    (h : pyRsplit1 line = [tok, idx]) (i : Int) (hi : pyInt idx = some i) :
    parsePairs (line :: rest) = (parsePairs rest).map fun ps => (i, tok) :: ps := by
  rw [parsePairs]
  rw [h]
  show (match pyInt idx with
    | some i2 => (parsePairs rest).map fun ps => (i2, tok) :: ps
    | none => none) = (parsePairs rest).map fun ps => (i, tok) :: ps
  rw [hi]

theorem parsePairs_serialized :
    ∀ (v : List PyStr), (∀ t ∈ v, goodToken t = true) → ∀ k,
      parsePairs ((v.enumFrom k).map fun p => p.2 ++ ' ' :: natRepr p.1) =
        some ((v.enumFrom k).map fun p => ((p.1 : Int), p.2)) := by
  intro v
  induction v with
  | nil => intro _ k; rfl
  | cons t rest ih =>
    intro hgood k
    obtain ⟨htne, hthead, htlast, _⟩ := goodToken_spec t (hgood t (by simp))
    rw [show ((t :: rest).enumFrom k).map (fun p => p.2 ++ ' ' :: natRepr p.1)
        = (t ++ ' ' :: natRepr k) ::
          ((rest.enumFrom (k + 1)).map fun p => p.2 ++ ' ' :: natRepr p.1) from rfl]
    rw [parsePairs_step (t ++ ' ' :: natRepr k) t (natRepr k) _
      (pyRsplit1_line t (natRepr k) htne htlast (natRepr_ne_nil k) (natRepr_not_ws k))
      (k : Int) (pyInt_natRepr k)]
    rw [ih (fun x hx => hgood x (by simp [hx])) (k + 1)]
    rfl

theorem pyStrip_line (t : PyStr) (k : Nat)
    (htne : t ≠ []) (hthead : ∀ c, t.head? = some c → isPyWs c = false) :
    pyStrip (t ++ ' ' :: natRepr k) = t ++ ' ' :: natRepr k := by
  apply pyStrip_eq_self
  · intro c hc
    cases t with
    | nil => exact absurd rfl htne
    | cons a r =>
      simp only [List.cons_append, List.head?_cons] at hc
      obtain rfl : a = c := by injection hc
      exact hthead a rfl
  · intro c hc
    have h1 : (t ++ ' ' :: natRepr k).getLast? = (natRepr k).getLast? := by
      rw [show t ++ ' ' :: natRepr k = (t ++ [' ']) ++ natRepr k by simp]
      exact List.getLast?_append_of_ne_nil _ (natRepr_ne_nil k)
    rw [h1] at hc
    exact range_not_ws c (natRepr_range k c (mem_of_getLast?_eq _ c hc))

theorem lines_of_serializeVocab (v : List PyStr) (hne : v ≠ [])
    (hgood : ∀ t ∈ v, goodToken t = true) :
    pySplitlines (serializeVocab v) = (v.enum).map fun p => p.2 ++ ' ' :: natRepr p.1 := by
  apply pySplitlines_join
  · simp [hne]
  · intro l hl
    obtain ⟨p, hp, rfl⟩ := List.mem_map.mp hl
    obtain ⟨_, _, _, hnl⟩ := goodToken_spec p.2 (hgood p.2 (snd_mem_of_mem_enumFrom v 0 p hp))
    intro c hc
    rcases List.mem_append.mp hc with hc | hc
    · exact hnl c hc
    · rcases List.mem_cons.mp hc with rfl | hc
      · decide
      · exact range_not_lb c (natRepr_range p.1 c hc)
  · intro l hl
    obtain ⟨p, _, rfl⟩ := List.mem_map.mp hl
    simp

theorem take_succ_set {α : Type} :
    ∀ (l : List α) (k : Nat) (t : α), k < l.length →
      (l.set k t).take (k + 1) = l.take k ++ [t] := by
  intro l
  induction l with
  | nil => intro k t h; simp at h
  | cons a r ih =>
    intro k t h
    cases k with
    | zero => rfl
    | succ k =>
      show a :: (r.set k t).take (k + 1) = a :: (r.take k ++ [t])
      rw [ih k t (by simp at h; omega)]

theorem drop_set_gt {α : Type} :
    ∀ (l : List α) (k m : Nat) (t : α), k < m → (l.set k t).drop m = l.drop m := by
  intro l
  induction l with
  | nil =>
    intro k m t h
    cases m with
    | zero => omega
    | succ m => rfl
  | cons a r ih =>
    intro k m t h
    cases m with
    | zero => omega
    | succ m =>
      cases k with
      | zero => rfl
      | succ k =>
        show (r.set k t).drop m = r.drop m
        exact ih k m t (by omega)

theorem foldl_max_enumFrom :
    ∀ (v : List PyStr) (k : Nat) (a : Int), v ≠ [] →
      ((((v.enumFrom k).map fun p => ((p.1 : Int), p.2)).map Prod.fst).foldl max a)
        = max a ((k : Int) + v.length - 1) := by
  intro v
  induction v with
  | nil => intro k a h; exact absurd rfl h
  | cons t rest ih =>
    intro k a _
    rw [show ((((t :: rest).enumFrom k).map fun p => ((p.1 : Int), p.2)).map Prod.fst)
        = (k : Int) ::
          (((rest.enumFrom (k + 1)).map fun p => ((p.1 : Int), p.2)).map Prod.fst) from rfl]
    rw [List.foldl_cons]
    by_cases hrest : rest = []
    · subst hrest
      simp only [List.length_cons, List.length_nil]
      show max a (k : Int) = max a ((k : Int) + ((0 + 1 : Nat) : Int) - 1)
      push_cast
      omega
    · rw [ih (k + 1) (max a (k : Int)) hrest]
      simp only [List.length_cons]
      push_cast
      omega

theorem foldl_set_length (ps : List (Int × PyStr)) :
    ∀ o : List PyStr,
      (ps.foldl
        (fun o q => if 0 ≤ q.1 ∧ q.1 < (o.length : Int) then o.set q.1.toNat q.2 else o)
        o).length = o.length := by
  induction ps with
  | nil => intro o; rfl
  | cons q rest ih =>
    intro o
    rw [List.foldl_cons, ih]
    by_cases h : 0 ≤ q.1 ∧ q.1 < (o.length : Int)
    · rw [if_pos h, List.length_set]
    · rw [if_neg h]

theorem foldl_set_getD (ps : List (Int × PyStr)) :
    ∀ (o : List PyStr) (j : Nat), (∀ q ∈ ps, q.1 ≠ (j : Int)) →
      (ps.foldl
        (fun o q => if 0 ≤ q.1 ∧ q.1 < (o.length : Int) then o.set q.1.toNat q.2 else o)
        o).getD j [] = o.getD j [] := by
  induction ps with
  | nil => intro o j _; rfl
  | cons q rest ih =>
    intro o j h
    rw [List.foldl_cons, ih _ j (fun q2 hq2 => h q2 (List.mem_cons_of_mem _ hq2))]
    by_cases hc : 0 ≤ q.1 ∧ q.1 < (o.length : Int)
    · rw [if_pos hc]
      have hne : q.1.toNat ≠ j := by
        intro he
        apply h q (List.mem_cons_self q rest)
        omega
      simp [List.getD, List.getElem?_set_ne hne]
    · rw [if_neg hc]

theorem getD_replicate_nil : ∀ (n j : Nat), (List.replicate n ([] : PyStr)).getD j [] = [] := by
  intro n
  induction n with
  | zero => intro j; rfl
  | succ n ih =>
    intro j
    cases j with
    | zero => rfl
    | succ j => exact ih j

theorem buildFromPairs_cons (p : Int × PyStr) (rest : List (Int × PyStr)) :
    buildFromPairs (p :: rest) = (p :: rest).foldl
      (fun o q => if 0 ≤ q.1 ∧ q.1 < (o.length : Int) then o.set q.1.toNat q.2 else o)
      (List.replicate ((((p :: rest).map Prod.fst).foldl max p.1) + 1).toNat []) := rfl

theorem buildFromPairs_spec (p : Int × PyStr) (rest : List (Int × PyStr)) :
    (buildFromPairs (p :: rest)).length
      = ((((p :: rest).map Prod.fst).foldl max p.1) + 1).toNat ∧
    ∀ j : Nat, (∀ q ∈ p :: rest, q.1 ≠ (j : Int)) →
      (buildFromPairs (p :: rest)).getD j [] = [] := by
  constructor
  · rw [buildFromPairs_cons, foldl_set_length, List.length_replicate]
  · intro j h
    rw [buildFromPairs_cons, foldl_set_getD _ _ _ h, getD_replicate_nil]

theorem foldl_set_enumFrom :
    ∀ (v : List PyStr) (k : Nat) (out : List PyStr), k + v.length ≤ out.length →
      (((v.enumFrom k).map fun p => ((p.1 : Int), p.2)).foldl
        (fun o q => if 0 ≤ q.1 ∧ q.1 < (o.length : Int) then o.set q.1.toNat q.2 else o)
        out)
      = out.take k ++ v ++ out.drop (k + v.length) := by
  intro v
  induction v with
  | nil =>
    intro k out _
    show out = out.take k ++ [] ++ out.drop (k + 0)
    simp
  | cons t rest ih =>
    intro k out h
    rw [show (((t :: rest).enumFrom k).map fun p => ((p.1 : Int), p.2))
        = ((k : Int), t) :: ((rest.enumFrom (k + 1)).map fun p => ((p.1 : Int), p.2)) from rfl]
    rw [List.foldl_cons]
    have hk : k < out.length := by simp at h; omega
    have hcond : 0 ≤ (((k : Int), t)).1 ∧ (((k : Int), t)).1 < (out.length : Int) := by
      constructor
      · simp
      · show (k : Int) < (out.length : Int)
        exact_mod_cast hk
    rw [if_pos hcond]
    rw [show (((k : Int), t)).1.toNat = k by simp]
    rw [ih (k + 1) (out.set k t) (by rw [List.length_set]; simp at h ⊢; omega)]
    rw [take_succ_set out k t hk]
    rw [drop_set_gt out k (k + 1 + rest.length) t (by omega)]
    rw [show k + (t :: rest).length = k + 1 + rest.length by simp; omega]
    simp

theorem buildFromPairs_enum (v : List PyStr) (hne : v ≠ []) :
    buildFromPairs ((v.enumFrom 0).map fun p => ((p.1 : Int), p.2)) = v := by
  cases v with
  | nil => exact absurd rfl hne
  | cons t rest =>
    show buildFromPairs (((0 : Int), t) ::
      ((rest.enumFrom 1).map fun p => ((p.1 : Int), p.2))) = t :: rest
    rw [buildFromPairs_cons]
    have hcount : (((((0 : Int), t) :: ((rest.enumFrom 1).map fun p => ((p.1 : Int), p.2))).map
        Prod.fst).foldl max (((0 : Int), t)).1 + 1).toNat = (t :: rest).length := by
      show (((((t :: rest).enumFrom 0).map fun p => ((p.1 : Int), p.2)).map
        Prod.fst).foldl max 0 + 1).toNat = (t :: rest).length
      rw [foldl_max_enumFrom (t :: rest) 0 0 (by simp)]
      simp only [List.length_cons]
      push_cast
      omega
    rw [hcount]
    rw [show (((0 : Int), t) :: ((rest.enumFrom 1).map fun p => ((p.1 : Int), p.2)))
        = (((t :: rest).enumFrom 0).map fun p => ((p.1 : Int), p.2)) from rfl]
    rw [foldl_set_enumFrom (t :: rest) 0 (List.replicate (t :: rest).length []) (by simp)]
    simp

/-- Claim C9 (amended).  For a **nonempty** vocabulary of tokens that
are nonempty, free of `str.splitlines()` line-boundary characters and
without leading or trailing whitespace, `_parse_token_file` is a left
inverse of serializing the vocabulary as `<tok> <i>` lines; and the
pair form builds an array of size `max_id + 1` whose unspecified
indices hold the empty string. -/
theorem claim_C9_amended :
    (∀ v : List PyStr, v ≠ [] → (∀ t ∈ v, goodToken t = true) →
      parseTokenFile (serializeVocab v) = some v) ∧
    (∀ (p : Int × PyStr) (rest : List (Int × PyStr)),
      (buildFromPairs (p :: rest)).length
        = ((((p :: rest).map Prod.fst).foldl max p.1) + 1).toNat ∧
      ∀ j : Nat, (∀ q ∈ p :: rest, q.1 ≠ (j : Int)) →
        (buildFromPairs (p :: rest)).getD j [] = []) := by
  constructor
  · intro v hne hgood
    have hstrip : (((v.enum).map fun p => p.2 ++ ' ' :: natRepr p.1).map pyStrip)
        = (v.enum).map fun p => p.2 ++ ' ' :: natRepr p.1 := by
      rw [List.map_map]
      apply List.map_congr_left
      intro p hp
      obtain ⟨h1, h2, _, _⟩ := goodToken_spec p.2 (hgood p.2 (snd_mem_of_mem_enumFrom v 0 p hp))
      show pyStrip (p.2 ++ ' ' :: natRepr p.1) = p.2 ++ ' ' :: natRepr p.1
      exact pyStrip_line p.2 p.1 h1 h2
    have hfilter : (((v.enum).map fun p => p.2 ++ ' ' :: natRepr p.1).filter
        fun l => l ≠ []) = (v.enum).map fun p => p.2 ++ ' ' :: natRepr p.1 := by
      rw [List.filter_eq_self]
      intro a ha
      obtain ⟨p, _, rfl⟩ := List.mem_map.mp ha
      simp
    have hlines : (((pySplitlines (serializeVocab v)).map pyStrip).filter fun l => l ≠ [])
        = (v.enum).map fun p => p.2 ++ ' ' :: natRepr p.1 := by
      rw [lines_of_serializeVocab v hne hgood, hstrip, hfilter]
    unfold parseTokenFile
    simp only [hlines]
    rw [if_neg (by simp [hne])]
    rw [show ((v.enum).map fun p => p.2 ++ ' ' :: natRepr p.1)
        = ((v.enumFrom 0).map fun p => p.2 ++ ' ' :: natRepr p.1) from rfl]
    rw [parsePairs_serialized v hgood 0]
    show some (buildFromPairs ((v.enumFrom 0).map fun p => ((p.1 : Int), p.2))) = some v
    rw [buildFromPairs_enum v hne]
  · intro p rest
    exact buildFromPairs_spec p rest

/-- Witness for `claim_C9_amended` at concrete inputs. -/
theorem claim_C9_witness :
    parseTokenFile (serializeVocab ["hi".data, "yo".data]) = some ["hi".data, "yo".data] ∧
    (buildFromPairs [((2 : Int), "a".data)]).length = 3 ∧
    (buildFromPairs [((2 : Int), "a".data)]).getD 0 [] = [] := by
  refine ⟨claim_C9_amended.1 ["hi".data, "yo".data] (by decide) (by decide), ?_, ?_⟩
  · exact ((claim_C9_amended.2 ((2 : Int), "a".data) []).1).trans (by decide)
  · exact (claim_C9_amended.2 ((2 : Int), "a".data) []).2 0 (by decide)

/-- Counterexample to claim C9 as stated for **every** vocabulary
list: the vocabulary holding only the empty token serializes to the
line `" 0"`, which strips to `"0"` and fails pair parsing, so
`_parse_token_file` returns `["0"]`, not `[""]`; and a token holding a
carriage return, such as `"a\\rb"`, is split in two by
`str.splitlines()`, so the parse returns `["a", "b 0"]`. -/
theorem claim_C9_counterexample :
    (parseTokenFile (serializeVocab [([] : PyStr)]) = some ["0".data] ∧
      some ["0".data] ≠ some [([] : PyStr)]) ∧
    (parseTokenFile (serializeVocab [['a', Char.ofNat 13, 'b']]) =
        some ["a".data, ['b', ' ', '0']] ∧
      some ["a".data, ['b', ' ', '0']] ≠ some [['a', Char.ofNat 13, 'b']]) := by
  refine ⟨⟨by decide, by decide⟩, by decide, by decide⟩

end GhostType
